import Mathlib

/-!
Verification of the email thread-reconstruction and cross-document-linking
logic of the aidevops repository.

Python strings are modelled as lists of characters (`Str`), Python dicts as
insertion-ordered association lists (updates keep the original position, as
CPython dicts do), and file-system state as explicit lists of paths.  The
mutation of email/document records performed by the scripts is modelled as a
final assignment map built from the write log of the run.
-/

abbrev Str := List Char

/-- Embed a Lean string literal as a Python-style character list. -/
def lit (s : String) : Str := s.data

namespace PyStr

/-- Whitespace characters recognised by Python's `str.strip` (ASCII subset). -/
def isSpaceChar (c : Char) : Bool :=
  c = ' ' || c = '\t' || c = '\n' || c = '\r' || c = '\x0b' || c = '\x0c'

/-- Python `s.lstrip()`. -/
def lstrip (s : Str) : Str := s.dropWhile isSpaceChar

/-- Python `s.rstrip()`. -/
def rstrip (s : Str) : Str := (s.reverse.dropWhile isSpaceChar).reverse

/-- Python `s.strip()`. -/
def strip (s : Str) : Str := rstrip (lstrip s)

/-- Python `s.startswith(pre)`. -/
def startsWith (s pre : Str) : Bool := List.isPrefixOf pre s

/-- Python `s.endswith(suf)`. -/
def endsWith (s suf : Str) : Bool := List.isSuffixOf suf s

/-- Helper of `find`: first index `≥ i` at which `sub` occurs. -/
def findAux (sub : Str) : Str → Nat → Option Nat
  | [], i => if sub.isEmpty then some i else none
  | c :: rest, i =>
    if List.isPrefixOf sub (c :: rest) then some i else findAux sub rest (i + 1)

/-- Python `s.find(sub, start)` (with `None` in place of `-1`). -/
def find (s sub : Str) (start : Nat) : Option Nat :=
  (findAux sub (s.drop start) 0).map (· + start)

/-- Python `sub in s`. -/
def containsSub (s sub : Str) : Bool := (findAux sub s 0).isSome

/-- Python `s.split(sep)` for a single-character separator. -/
def splitOnChar (sep : Char) : Str → List Str
  | [] => [[]]
  | c :: r =>
    if c = sep then [] :: splitOnChar sep r
    else
      match splitOnChar sep r with
      | [] => [[c]]
      | h :: t => (c :: h) :: t

/-- Python `s.split(sep)[0]`: the prefix before the first occurrence of
`sep`, or all of `s` when `sep` does not occur. -/
def splitHead (sep s : Str) : Str :=
  match findAux sep s 0 with
  | none => s
  | some i => s.take i

/-- Python `s.split(sep, 1)` restricted to the case `sep in s`. -/
def split1 (sep s : Str) : Option (Str × Str) :=
  (findAux sep s 0).map (fun i => (s.take i, s.drop (i + sep.length)))

/-- Python `s.rstrip(":")`. -/
def rstripColon (s : Str) : Str := (s.reverse.dropWhile (· = ':')).reverse

/-- Lexicographic (code-point) comparison, Python `s <= t` on strings. -/
def lexLe : Str → Str → Bool
  | [], _ => true
  | _ :: _, [] => false
  | a :: as, b :: bs => if a < b then true else if b < a then false else lexLe as bs

end PyStr

/-- Insert into a sorted list, keeping earlier elements first among ties. -/
def insertLe {α : Type _} (le : α → α → Bool) (x : α) : List α → List α
  | [] => [x]
  | y :: ys => if le x y then x :: y :: ys else y :: insertLe le x ys

/-- Stable insertion sort; extensionally equal to Python's stable `sorted`
for a total preorder `le`. -/
def sortedBy {α : Type _} (le : α → α → Bool) (l : List α) : List α :=
  l.foldr (insertLe le) []

/-- Python dict lookup on an insertion-ordered association list. -/
def alookup {β : Type _} (k : Str) : List (Str × β) → Option β
  | [] => none
  | (k', v) :: rest => if k' = k then some v else alookup k rest

/-- Python dict assignment `d[k] = v`: updates in place when the key exists
(keeping its position, as CPython dicts do), otherwise appends. -/
def aset {β : Type _} (k : Str) (v : β) : List (Str × β) → List (Str × β)
  | [] => [(k, v)]
  | (k', v') :: rest => if k' = k then (k, v) :: rest else (k', v') :: aset k v rest

/-!
## Thread graph construction

Embedding of `build_thread_graph` from
`.agents/scripts/email-thread-reconstruction.py`.  Each parsed email record
carries `file`, `message_id`, `in_reply_to` and `date_sent` (the Python code
reads them with `.get(key, '')`, so an absent field is the empty string).
The Python recursion has no a-priori termination bound, so the traversal
takes explicit fuel; `build_thread_graph` uses fuel `emails.length` per root
and returns `none` if some traversal would recurse deeper than that.
-/

structure Email where
  file : Str
  message_id : Str
  in_reply_to : Str
  date_sent : Str
deriving DecidableEq, Repr

namespace EmailThreads

open PyStr

/-- The `by_message_id` index: emails with a nonempty stripped `message_id`,
later entries overwriting earlier ones. -/
def by_message_id (emails : List Email) : List (Str × Email) :=
  emails.foldl
    (fun m e =>
      let msg := strip e.message_id
      if msg ≠ [] then aset msg e m else m)
    []

/-- Python `in_reply_to in by_message_id`. -/
def resolvable (emails : List Email) (k : Str) : Bool :=
  (alookup k (by_message_id emails)).isSome

/-- The condition under which the classification loop appends an email to
`roots` (no `message_id`, no `in_reply_to`, or unresolved `in_reply_to`). -/
def isRoot (emails : List Email) (e : Email) : Bool :=
  strip e.message_id = [] || strip e.in_reply_to = [] ||
    !resolvable emails (strip e.in_reply_to)

/-- The `roots` list, in scan order. -/
def roots (emails : List Email) : List Email :=
  emails.filter (isRoot emails)

/-- Python `children[k]`: the emails appended under key `k` (their stripped
`in_reply_to`) by the classification loop, in scan order. -/
def childrenOf (emails : List Email) (k : Str) : List Email :=
  emails.filter (fun e => !isRoot emails e && strip e.in_reply_to = k)

/-- Python `sorted(children[msg_id], key=lambda e: e.get('date_sent', ''))`. -/
def sortChildren (l : List Email) : List Email :=
  sortedBy (fun a b => lexLe a.date_sent b.date_sent) l

/-- The recursive `traverse`: visits the node at `pos`, then each child
subtree in date order at `pos + 1`.  Returns the list of
(email, thread_position) visits in visit order, or `none` when out of fuel.
Note the child lookup uses the raw (unstripped) `message_id`, as the Python
code does. -/
def traverse (emails : List Email) : Nat → Email → Nat → Option (List (Email × Nat))
  | 0, _, _ => none
  | fuel + 1, e, pos =>
    (sortChildren (childrenOf emails e.message_id)).foldl
      (fun acc k =>
        match acc with
        | none => none
        | some l =>
          match traverse emails fuel k (pos + 1) with
          | none => none
          | some sub => some (l ++ sub))
      (some [(e, pos)])

/-- The thread metadata finally stored on an email record (all `none` when
the record is never reached by any traversal). -/
structure TInfo where
  thread_position : Option Nat := none
  thread_length : Option Nat := none
  thread_id : Option Str := none
deriving DecidableEq, Repr

def blankInfo : TInfo := {}

/-- The assignment state: final field values per email record.  Distinct
records are assumed to be distinct values (they carry distinct `file`
paths), so a function keyed on the record models Python's per-object
mutation. -/
abbrev TState := Email → TInfo

/-- The `email['thread_position'] = position` writes of one traversal, in
visit order. -/
def assignPositions (st : TState) (visits : List (Email × Nat)) : TState :=
  visits.foldl
    (fun s ep => Function.update s ep.1 { s ep.1 with thread_position := some ep.2 })
    st

/-- Python `thread_id = root.get('message_id', '') or root['file']` (the raw,
unstripped `message_id`). -/
def threadIdOf (root : Email) : Str :=
  if root.message_id ≠ [] then root.message_id else root.file

/-- The `thread_length` / `thread_id` writes over one thread list. -/
def assignThreadMeta (st : TState) (tid : Str) (n : Nat) (visits : List (Email × Nat)) :
    TState :=
  visits.foldl
    (fun s ep =>
      Function.update s ep.1
        { s ep.1 with thread_length := some n, thread_id := some tid })
    st

/-- Embedding of `build_thread_graph`: classify into roots/children, traverse each root,
assign positions and thread metadata, and collect the `threads` dict mapping
each thread id to its thread list. -/
def build_thread_graph (emails : List Email) :
    Option (TState × List (Str × List Email)) :=
  (roots emails).foldlM
    (fun acc root =>
      (traverse emails emails.length root 0).map (fun visits =>
        let tid := threadIdOf root
        let st := assignThreadMeta (assignPositions acc.1 visits) tid visits.length visits
        (st, aset tid (visits.map Prod.fst) acc.2)))
    (fun _ => blankInfo, [])

end EmailThreads

/-!
## Generic lemmas about the helper functions
-/

theorem insertLe_perm {α : Type _} (le : α → α → Bool) (x : α) (l : List α) :
    List.Perm (insertLe le x l) (x :: l) := by
  induction l with
  | nil => simp [insertLe]
  | cons y ys ih =>
    simp only [insertLe]
    split
    · exact List.Perm.refl _
    · exact ((ih.cons y).trans (List.Perm.swap x y ys))

theorem sortedBy_perm {α : Type _} (le : α → α → Bool) (l : List α) :
    List.Perm (sortedBy le l) l := by
  induction l with
  | nil => exact List.Perm.refl _
  | cons x xs ih => exact (insertLe_perm le x (sortedBy le xs)).trans (ih.cons x)

theorem mem_sortedBy {α : Type _} {le : α → α → Bool} {x : α} {l : List α} :
    x ∈ sortedBy le l ↔ x ∈ l := (sortedBy_perm le l).mem_iff

theorem sortedBy_nodup {α : Type _} {le : α → α → Bool} {l : List α} (h : l.Nodup) :
    (sortedBy le l).Nodup := ((sortedBy_perm le l).nodup_iff).mpr h

theorem mem_of_mem_aset {β : Type _} {k : Str} {v : β} {m : List (Str × β)}
    {x : Str × β} (h : x ∈ aset k v m) : x = (k, v) ∨ x ∈ m := by
  induction m with
  | nil => simpa [aset] using h
  | cons p rest ih =>
    rcases p with ⟨k', v'⟩
    simp only [aset] at h
    by_cases hk : k' = k
    · rw [if_pos hk] at h
      rcases List.mem_cons.mp h with h | h
      · exact Or.inl h
      · exact Or.inr (List.mem_cons_of_mem _ h)
    · rw [if_neg hk] at h
      rcases List.mem_cons.mp h with h | h
      · exact Or.inr (h ▸ List.mem_cons_self _ _)
      · rcases ih h with h' | h'
        · exact Or.inl h'
        · exact Or.inr (List.mem_cons_of_mem _ h')

theorem alookup_mem {β : Type _} {k : Str} {m : List (Str × β)} {v : β}
    (h : alookup k m = some v) : (k, v) ∈ m := by
  induction m with
  | nil => simp [alookup] at h
  | cons p rest ih =>
    rcases p with ⟨k', v'⟩
    simp only [alookup] at h
    by_cases hk : k' = k
    · rw [if_pos hk] at h
      cases h
      exact hk ▸ List.mem_cons_self _ _
    · rw [if_neg hk] at h
      exact List.mem_cons_of_mem _ (ih h)

/-!
## Structural lemmas about the thread graph
-/

namespace EmailThreads

open PyStr

/-- Invariant of the `by_message_id` index: every stored entry is a scanned
email filed under its nonempty stripped `message_id`. -/
theorem by_message_id_inv {emails : List Email} {k : Str} {a : Email}
    (h : (k, a) ∈ by_message_id emails) :
    a ∈ emails ∧ strip a.message_id = k ∧ k ≠ [] := by
  unfold by_message_id at h
  suffices H : ∀ (l acc : List Email) (m : List (Str × Email)),
      (∀ x : Str × Email, x ∈ m →
        x.2 ∈ acc ∧ strip x.2.message_id = x.1 ∧ x.1 ≠ []) →
      (∀ e, e ∈ l → e ∈ acc) →
      ∀ x : Str × Email,
        x ∈ l.foldl (fun m e =>
          let msg := strip e.message_id
          if msg ≠ [] then aset msg e m else m) m →
        x.2 ∈ acc ∧ strip x.2.message_id = x.1 ∧ x.1 ≠ [] by
    exact H emails emails [] (by intro x hx; simp at hx) (fun e he => he) (k, a) h
  intro l
  induction l with
  | nil =>
    intro acc m hm _ x hx
    exact hm x hx
  | cons e rest ih =>
    intro acc m hm hsub x hx
    simp only [List.foldl_cons] at hx
    by_cases hmsg : strip e.message_id ≠ []
    · rw [if_pos hmsg] at hx
      refine ih acc _ ?_ (fun e' he' => hsub e' (List.mem_cons_of_mem _ he')) x hx
      intro y hy
      rcases mem_of_mem_aset hy with hy' | hy'
      · subst hy'
        exact ⟨hsub e (List.mem_cons_self _ _), rfl, hmsg⟩
      · exact hm y hy'
    · rw [if_neg hmsg] at hx
      exact ih acc m hm (fun e' he' => hsub e' (List.mem_cons_of_mem _ he')) x hx

theorem resolvable_lookup {emails : List Email} {k : Str} {p : Email}
    (h : alookup k (by_message_id emails) = some p) :
    p ∈ emails ∧ strip p.message_id = k ∧ k ≠ [] :=
  by_message_id_inv (alookup_mem h)

theorem mem_childrenOf {emails : List Email} {k : Str} {e : Email} :
    e ∈ childrenOf emails k ↔
      e ∈ emails ∧ isRoot emails e = false ∧ strip e.in_reply_to = k := by
  simp only [childrenOf, List.mem_filter, Bool.and_eq_true, Bool.not_eq_true',
    decide_eq_true_eq]

theorem mem_roots {emails : List Email} {e : Email} :
    e ∈ roots emails ↔ e ∈ emails ∧ isRoot emails e = true := by
  simp [roots, List.mem_filter]

/-- A non-root email has a nonempty stripped `message_id`, a nonempty
stripped `in_reply_to`, and a resolvable `in_reply_to`. -/
theorem not_root_facts {emails : List Email} {e : Email}
    (h : isRoot emails e = false) :
    strip e.message_id ≠ [] ∧ strip e.in_reply_to ≠ [] ∧
      ∃ p, alookup (strip e.in_reply_to) (by_message_id emails) = some p := by
  unfold isRoot at h
  simp only [Bool.or_eq_false_iff, Bool.not_eq_false', decide_eq_false_iff_not] at h
  obtain ⟨⟨h1, h2⟩, h3⟩ := h
  refine ⟨h1, h2, ?_⟩
  unfold resolvable at h3
  exact Option.isSome_iff_exists.mp h3

/-- The reply step relation generated by the `children` table: `Step a b`
holds when `b` was filed as a child under `a`'s raw `message_id`. -/
def Step (emails : List Email) (a b : Email) : Prop :=
  a ∈ emails ∧ b ∈ childrenOf emails a.message_id

/-- Reachability along reply steps. -/
def Reach (emails : List Email) : Email → Email → Prop :=
  Relation.ReflTransGen (Step emails)

/-- The cleanliness hypothesis: all id fields are already stripped
(guaranteed for values produced by the frontmatter parser, which strips
every scalar value). -/
abbrev CleanIds (emails : List Email) : Prop :=
  ∀ e ∈ emails, strip e.message_id = e.message_id ∧ strip e.in_reply_to = e.in_reply_to

/-- The uniqueness hypothesis: nonempty message ids identify emails. -/
abbrev UniqueIds (emails : List Email) : Prop :=
  ∀ a ∈ emails, ∀ b ∈ emails,
    strip a.message_id ≠ [] → strip a.message_id = strip b.message_id → a = b

/-- Under clean, unique ids each child has a unique traversal parent. -/
theorem step_unique {emails : List Email}
    (hclean : CleanIds emails) (huniq : UniqueIds emails)
    {a b v : Email} (ha : Step emails a v) (hb : Step emails b v) : a = b := by
  obtain ⟨hamem, hav⟩ := ha
  obtain ⟨hbmem, hbv⟩ := hb
  obtain ⟨hvmem, hvroot, hva⟩ := mem_childrenOf.mp hav
  obtain ⟨_, _, hvb⟩ := (mem_childrenOf.mp hbv)
  obtain ⟨_, hirt, hres⟩ := not_root_facts hvroot
  obtain ⟨p, hp⟩ := hres
  obtain ⟨_, _, hkne⟩ := resolvable_lookup hp
  -- raw message ids of a and b agree with the stripped in_reply_to of v
  have hab : a.message_id = b.message_id := by rw [← hva, ← hvb]
  have hastrip : strip a.message_id = a.message_id := (hclean a hamem).1
  have hane : strip a.message_id ≠ [] := by
    rw [hastrip, ← hva]; exact hkne
  have hbstrip : strip b.message_id = b.message_id := (hclean b hbmem).1
  exact huniq a hamem b hbmem hane (by rw [hastrip, hbstrip, hab])

/-- A root email is never a child of anything. -/
theorem root_no_step {emails : List Email} {a r : Email}
    (hr : isRoot emails r = true) (h : Step emails a r) : False := by
  obtain ⟨_, hchild⟩ := h
  obtain ⟨_, hfalse, _⟩ := mem_childrenOf.mp hchild
  rw [hr] at hfalse
  exact Bool.noConfusion hfalse

/-- A reachability chain ending at a root is trivial. -/
theorem reach_root_eq {emails : List Email} {a r : Email}
    (hr : isRoot emails r = true) (h : Reach emails a r) : a = r := by
  rcases (Relation.ReflTransGen.cases_tail h) with h' | ⟨b, _, hstep⟩
  · exact h'.symm
  · exact absurd hstep (fun hs => root_no_step hr hs)

/-- Chains into a common node are linearly ordered: the unique-parent
property forces any two chains into `v` to be comparable. -/
theorem reach_linear {emails : List Email}
    (hclean : CleanIds emails) (huniq : UniqueIds emails) {a v : Email}
    (h : Reach emails a v) :
    ∀ b, Reach emails b v → Reach emails a b ∨ Reach emails b a := by
  induction h with
  | refl =>
    intro b hb
    exact Or.inr hb
  | tail h1 hstep ih =>
    rename_i u w
    intro b hb
    rcases (Relation.ReflTransGen.cases_tail hb) with h' | ⟨z, hbz, hzw⟩
    · subst h'
      exact Or.inl (h1.tail hstep)
    · have hz : z = u := step_unique hclean huniq hzw hstep
      subst hz
      exact ih b hbz

end EmailThreads

namespace EmailThreads

open PyStr

theorem isSome_map {α β : Type _} (f : α → β) (o : Option α) :
    (o.map f).isSome = o.isSome := by
  cases o <;> rfl

/-- Option-valued map over a list, failing when any element fails. -/
def mapO {α β : Type _} (f : α → Option β) : List α → Option (List β)
  | [] => some []
  | x :: xs =>
    match f x with
    | none => none
    | some y =>
      match mapO f xs with
      | none => none
      | some ys => some (y :: ys)

theorem mapO_isSome {α β : Type _} {f : α → Option β} :
    ∀ {l : List α}, (mapO f l).isSome ↔ ∀ x ∈ l, (f x).isSome := by
  intro l
  induction l with
  | nil => simp [mapO]
  | cons x xs ih =>
    simp only [mapO]
    cases hx : f x with
    | none => simp [hx]
    | some y =>
      cases hxs : mapO f xs with
      | none => simp_all
      | some ys => simp_all

theorem mapO_mem {α β : Type _} {f : α → Option β} :
    ∀ {l : List α} {ys : List β}, mapO f l = some ys →
      ∀ y ∈ ys, ∃ x ∈ l, f x = some y := by
  intro l
  induction l with
  | nil =>
    intro ys h y hy
    simp only [mapO] at h
    cases h
    simp at hy
  | cons x xs ih =>
    intro ys h y hy
    simp only [mapO] at h
    cases hx : f x with
    | none => rw [hx] at h; cases h
    | some z =>
      rw [hx] at h
      cases hxs : mapO f xs with
      | none => rw [hxs] at h; cases h
      | some zs =>
        rw [hxs] at h
        cases h
        rcases List.mem_cons.mp hy with hy | hy
        · exact ⟨x, List.mem_cons_self _ _, hy ▸ hx⟩
        · rcases ih hxs y hy with ⟨x', hx', hfx'⟩
          exact ⟨x', List.mem_cons_of_mem _ hx', hfx'⟩

theorem mapO_mem_of_mem {α β : Type _} {f : α → Option β} :
    ∀ {l : List α} {ys : List β}, mapO f l = some ys →
      ∀ x ∈ l, ∃ y ∈ ys, f x = some y := by
  intro l
  induction l with
  | nil =>
    intro ys h x hx
    simp at hx
  | cons a xs ih =>
    intro ys h x hx
    simp only [mapO] at h
    cases ha : f a with
    | none => rw [ha] at h; cases h
    | some z =>
      rw [ha] at h
      cases hxs : mapO f xs with
      | none => rw [hxs] at h; cases h
      | some zs =>
        rw [hxs] at h
        cases h
        rcases List.mem_cons.mp hx with hx | hx
        · exact ⟨z, List.mem_cons_self _ _, hx ▸ ha⟩
        · rcases ih hxs x hx with ⟨y, hy, hfy⟩
          exact ⟨y, List.mem_cons_of_mem _ hy, hfy⟩

/-- The child-subtree fold inside `traverse`, re-expressed with `mapO`. -/
theorem fold_traverse_none (emails : List Email) (fuel pos : Nat) :
    ∀ kids : List Email,
      kids.foldl
        (fun acc k =>
          match acc with
          | none => none
          | some l =>
            match traverse emails fuel k (pos + 1) with
            | none => none
            | some sub => some (l ++ sub))
        none = none := by
  intro kids
  induction kids with
  | nil => rfl
  | cons k ks ih => simpa using ih

theorem fold_traverse_some (emails : List Email) (fuel pos : Nat) :
    ∀ (kids : List Email) (l : List (Email × Nat)),
      kids.foldl
        (fun acc k =>
          match acc with
          | none => none
          | some l =>
            match traverse emails fuel k (pos + 1) with
            | none => none
            | some sub => some (l ++ sub))
        (some l) =
      (mapO (fun k => traverse emails fuel k (pos + 1)) kids).map
        (fun subs => l ++ subs.flatten) := by
  intro kids
  induction kids with
  | nil => intro l; simp [mapO]
  | cons k ks ih =>
    intro l
    simp only [List.foldl_cons, mapO]
    cases hk : traverse emails fuel k (pos + 1) with
    | none => simp [fold_traverse_none emails fuel pos ks]
    | some sub =>
      simp only [ih (l ++ sub)]
      cases hks : mapO (fun k => traverse emails fuel k (pos + 1)) ks with
      | none => simp
      | some subs => simp [List.append_assoc]

/-- Unfolding `traverse` at positive fuel: visit the node, then the child subtrees. -/
theorem traverse_succ (emails : List Email) (fuel : Nat) (e : Email) (pos : Nat) :
    traverse emails (fuel + 1) e pos =
      (mapO (fun k => traverse emails fuel k (pos + 1))
        (sortChildren (childrenOf emails e.message_id))).map
        (fun subs => (e, pos) :: subs.flatten) := by
  show (sortChildren (childrenOf emails e.message_id)).foldl _ (some [(e, pos)]) = _
  rw [fold_traverse_some]
  cases mapO (fun k => traverse emails fuel k (pos + 1))
      (sortChildren (childrenOf emails e.message_id)) with
  | none => rfl
  | some subs => simp

/-- Ancestor paths of the traversal: `IsPathR e anc` says `e` is reached
from a root through the reversed ancestor list `anc`. -/
inductive IsPathR (emails : List Email) : Email → List Email → Prop
  | root {r : Email} : r ∈ emails → isRoot emails r = true → IsPathR emails r []
  | step {u c : Email} {anc : List Email} :
      IsPathR emails u anc → c ∈ childrenOf emails u.message_id →
      IsPathR emails c (u :: anc)

theorem path_sub {emails : List Email} {c : Email} {anc : List Email}
    (h : IsPathR emails c anc) : ∀ x ∈ c :: anc, x ∈ emails := by
  induction h with
  | root hr _ =>
    intro x hx
    simp only [List.mem_singleton] at hx
    exact hx ▸ hr
  | step hpath hc ih =>
    intro x hx
    rcases List.mem_cons.mp hx with hx | hx
    · exact hx ▸ (mem_childrenOf.mp hc).1
    · exact ih x hx

theorem path_chain {emails : List Email} {c : Email} {anc : List Email}
    (h : IsPathR emails c anc) :
    List.Chain' (fun x y => Step emails y x) (c :: anc) := by
  induction h with
  | root hr _ => simp
  | step hpath hc ih =>
    rename_i u c' anc'
    exact List.chain'_cons.mpr ⟨⟨path_sub hpath u (List.mem_cons_self _ _), hc⟩, ih⟩

theorem path_last_root {emails : List Email} {c : Email} {anc : List Email}
    (h : IsPathR emails c anc) :
    isRoot emails ((c :: anc).getLast (by simp)) = true := by
  induction h with
  | root _ hr => simpa
  | step hpath hc ih =>
    rename_i u c' anc'
    rwa [List.getLast_cons (by simp)]

/-- Under clean unique ids, traversal ancestor paths never repeat a node. -/
theorem path_nodup {emails : List Email}
    (hclean : CleanIds emails) (huniq : UniqueIds emails)
    {c : Email} {anc : List Email} (h : IsPathR emails c anc) :
    (c :: anc).Nodup := by
  induction h with
  | root => simp
  | step hpath hc ih =>
    rename_i u c' anc'
    refine List.nodup_cons.mpr ⟨?_, ih⟩
    intro hmem
    have hstep : Step emails u c' :=
      ⟨path_sub hpath u (List.mem_cons_self _ _), hc⟩
    rcases List.mem_cons.mp hmem with hcu | hcanc
    · -- the new node equals its own parent
      cases hpath with
      | root hm hroot =>
        rw [← hcu] at hroot
        rw [← hcu] at hstep
        exact root_no_step hroot hstep
      | step hpath2 hc2 =>
        rename_i w anc2
        have hstepw : Step emails w u :=
          ⟨path_sub hpath2 w (List.mem_cons_self _ _), hc2⟩
        rw [hcu] at hstep
        rw [← hcu] at hstepw
        have hwu : w = c' := step_unique hclean huniq hstepw (hcu ▸ hstep)
        have hun : u ∉ w :: anc2 := (List.nodup_cons.mp ih).1
        rw [hwu, ← hcu] at hun
        exact hun (List.mem_cons_self _ _)
    · -- the new node already occurs among the ancestors
      rcases List.append_of_mem hcanc with ⟨pre, post, hanc⟩
      cases post with
      | nil =>
        have hlast := path_last_root hpath
        have h1 : (u :: anc').getLast? = some c' := by
          rw [hanc]
          show ((u :: pre) ++ [c']).getLast? = some c'
          exact List.getLast?_concat _
        have h2 : (u :: anc').getLast? = some ((u :: anc').getLast (by simp)) :=
          List.getLast?_eq_getLast _ _
        rw [h1] at h2
        have hceq : (u :: anc').getLast (by simp) = c' := by
          injection h2 with h2
          exact h2.symm
        rw [hceq] at hlast
        exact root_no_step hlast hstep
      | cons w post' =>
        have hch := path_chain hpath
        rw [hanc, show u :: (pre ++ c' :: w :: post') =
          ((u :: pre) ++ [c']) ++ (w :: post') by simp] at hch
        rcases List.chain'_append.mp hch with ⟨_, _, hadj⟩
        have hrel : Step emails w c' :=
          hadj c' (by rw [List.getLast?_concat]; rfl) w rfl
        have hwu : w = u := step_unique hclean huniq hrel hstep
        have hun : u ∉ anc' := (List.nodup_cons.mp ih).1
        rw [← hwu] at hun
        exact hun (by rw [hanc]; simp)

/-- A root-anchored path can be extended along any reachability chain. -/
theorem path_extend {emails : List Email} {u v : Email}
    (h : Reach emails u v) :
    ∀ anc, IsPathR emails u anc →
      v = u ∨ ∃ mid, IsPathR emails v (mid ++ u :: anc) := by
  induction h using Relation.ReflTransGen.head_induction_on with
  | refl => intro anc _; exact Or.inl rfl
  | head hstep hrest ih =>
    rename_i x c
    intro anc hx
    have hc : IsPathR emails c (x :: anc) := IsPathR.step hx hstep.2
    rcases ih (x :: anc) hc with h' | ⟨mid, hmid⟩
    · exact Or.inr ⟨[], h' ▸ hc⟩
    · refine Or.inr ⟨mid ++ [c], ?_⟩
      rw [List.append_assoc]
      simpa using hmid

/-- Fuel sufficiency: a traversal anchored on a root-path with enough fuel
never runs out (paths cannot be longer than the email list). -/
theorem traverse_isSome {emails : List Email}
    (hclean : CleanIds emails) (huniq : UniqueIds emails) :
    ∀ (fuel : Nat) (e : Email) (anc : List Email) (pos : Nat),
      IsPathR emails e anc → emails.length ≤ fuel + anc.length →
      (traverse emails fuel e pos).isSome := by
  intro fuel
  induction fuel with
  | zero =>
    intro e anc pos hp hlen
    exfalso
    have hnd := path_nodup hclean huniq hp
    have hsub := path_sub hp
    have hle : (e :: anc).length ≤ emails.length := by
      calc (e :: anc).length = (e :: anc).toFinset.card :=
            (List.toFinset_card_of_nodup hnd).symm
        _ ≤ emails.toFinset.card :=
            Finset.card_le_card
              (fun x hx => List.mem_toFinset.mpr (hsub x (List.mem_toFinset.mp hx)))
        _ ≤ emails.length := emails.toFinset_card_le
    simp only [List.length_cons] at hle
    omega
  | succ fuel ih =>
    intro e anc pos hp hlen
    rw [traverse_succ, isSome_map, mapO_isSome]
    intro k hk
    have hkc : k ∈ childrenOf emails e.message_id := mem_sortedBy.mp hk
    refine ih k (e :: anc) (pos + 1) (IsPathR.step hp hkc) ?_
    simp only [List.length_cons]
    omega

/-- Every root starts a valid path, so each root traversal succeeds. -/
theorem traverse_root_isSome {emails : List Email}
    (hclean : CleanIds emails) (huniq : UniqueIds emails)
    {r : Email} (hr : r ∈ roots emails) :
    (traverse emails emails.length r 0).isSome := by
  obtain ⟨hmem, hroot⟩ := mem_roots.mp hr
  exact traverse_isSome hclean huniq emails.length r [] 0
    (IsPathR.root hmem hroot) (by simp)

/-- The classification/traversal pipeline terminates: `build_thread_graph`
returns a result on any input with clean, unique message ids. -/
theorem build_isSome {emails : List Email}
    (hclean : CleanIds emails) (huniq : UniqueIds emails) :
    (build_thread_graph emails).isSome := by
  unfold build_thread_graph
  have H : ∀ (l : List Email) (acc : TState × List (Str × List Email)),
      (∀ r ∈ l, (traverse emails emails.length r 0).isSome) →
      (l.foldlM
        (fun acc root =>
          (traverse emails emails.length root 0).map (fun visits =>
            let tid := threadIdOf root
            let st := assignThreadMeta (assignPositions acc.1 visits) tid
              visits.length visits
            (st, aset tid (visits.map Prod.fst) acc.2)))
        acc).isSome := by
    intro l
    induction l with
    | nil => intro acc _; simp
    | cons r rest ih =>
      intro acc hall
      have hr := hall r (List.mem_cons_self _ _)
      rw [Option.isSome_iff_exists] at hr
      obtain ⟨vs, hvs⟩ := hr
      simp only [List.foldlM_cons, hvs, Option.map_some', Option.bind_eq_bind,
        Option.some_bind]
      exact ih _ (fun r' hr' => hall r' (List.mem_cons_of_mem _ hr'))
  exact H (roots emails) _ (fun r hr => traverse_root_isSome hclean huniq hr)

end EmailThreads

namespace EmailThreads

open PyStr

/-- Destructor for a successful traversal at positive fuel. -/
theorem traverse_some_succ {emails : List Email} {fuel : Nat} {e : Email}
    {pos : Nat} {vs : List (Email × Nat)}
    (h : traverse emails (fuel + 1) e pos = some vs) :
    ∃ subs, mapO (fun k => traverse emails fuel k (pos + 1))
        (sortChildren (childrenOf emails e.message_id)) = some subs ∧
      vs = (e, pos) :: subs.flatten := by
  rw [traverse_succ] at h
  cases hm : mapO (fun k => traverse emails fuel k (pos + 1))
      (sortChildren (childrenOf emails e.message_id)) with
  | none => rw [hm] at h; cases h
  | some subs =>
    rw [hm] at h
    simp only [Option.map_some'] at h
    cases h
    exact ⟨subs, rfl, rfl⟩

/-- The traversal visits its own start node at the start position. -/
theorem visit_self {emails : List Email} {fuel : Nat} {e : Email} {pos : Nat}
    {vs : List (Email × Nat)} (h : traverse emails fuel e pos = some vs) :
    (e, pos) ∈ vs := by
  cases fuel with
  | zero => cases h
  | succ fuel =>
    obtain ⟨subs, _, hvs⟩ := traverse_some_succ h
    rw [hvs]
    exact List.mem_cons_self _ _

/-- Every visit is either the start node or arises from a visited parent. -/
theorem visit_parent {emails : List Email} :
    ∀ (fuel : Nat) (e : Email) (pos : Nat) (vs : List (Email × Nat)),
      traverse emails fuel e pos = some vs →
      ∀ v q, (v, q) ∈ vs →
        (v = e ∧ q = pos) ∨
        ∃ u p, (u, p) ∈ vs ∧ q = p + 1 ∧ v ∈ childrenOf emails u.message_id := by
  intro fuel
  induction fuel with
  | zero => intro e pos vs h; cases h
  | succ fuel ih =>
    intro e pos vs h v q hv
    obtain ⟨subs, hsubs, hvs⟩ := traverse_some_succ h
    subst hvs
    rcases List.mem_cons.mp hv with hv | hv
    · cases hv
      exact Or.inl ⟨rfl, rfl⟩
    · rcases List.mem_flatten.mp hv with ⟨sub, hsubmem, hvsub⟩
      rcases mapO_mem hsubs sub hsubmem with ⟨k, hk, htr⟩
      rcases ih k (pos + 1) sub htr v q hvsub with ⟨hvk, hq⟩ | ⟨u, p, hup, hq, hvc⟩
      · refine Or.inr ⟨e, pos, List.mem_cons_self _ _, hq, ?_⟩
        rw [hvk]
        exact mem_sortedBy.mp hk
      · exact Or.inr ⟨u, p,
          List.mem_cons_of_mem _ (List.mem_flatten.mpr ⟨sub, hsubmem, hup⟩), hq, hvc⟩

/-- Every visit spawns a visit of each of its children one level deeper. -/
theorem visit_kids {emails : List Email} :
    ∀ (fuel : Nat) (e : Email) (pos : Nat) (vs : List (Email × Nat)),
      traverse emails fuel e pos = some vs →
      ∀ u p, (u, p) ∈ vs → ∀ k, k ∈ childrenOf emails u.message_id →
        (k, p + 1) ∈ vs := by
  intro fuel
  induction fuel with
  | zero => intro e pos vs h; cases h
  | succ fuel ih =>
    intro e pos vs h u p hu k hk
    obtain ⟨subs, hsubs, hvs⟩ := traverse_some_succ h
    subst hvs
    rcases List.mem_cons.mp hu with hu | hu
    · cases hu
      have hk' : k ∈ sortChildren (childrenOf emails e.message_id) :=
        mem_sortedBy.mpr hk
      rcases mapO_mem_of_mem hsubs k hk' with ⟨sub, hsubmem, htr⟩
      exact List.mem_cons_of_mem _
        (List.mem_flatten.mpr ⟨sub, hsubmem, visit_self htr⟩)
    · rcases List.mem_flatten.mp hu with ⟨sub, hsubmem, husub⟩
      rcases mapO_mem hsubs sub hsubmem with ⟨k', hk', htr⟩
      exact List.mem_cons_of_mem _
        (List.mem_flatten.mpr ⟨sub, hsubmem, ih k' (pos + 1) sub htr u p husub k hk⟩)

/-- Every visited node is reachable from the start node. -/
theorem visit_reach {emails : List Email} :
    ∀ (fuel : Nat) (e : Email) (pos : Nat) (vs : List (Email × Nat)),
      e ∈ emails → traverse emails fuel e pos = some vs →
      ∀ v q, (v, q) ∈ vs → Reach emails e v := by
  intro fuel
  induction fuel with
  | zero => intro e pos vs _ h; cases h
  | succ fuel ih =>
    intro e pos vs hmem h v q hv
    obtain ⟨subs, hsubs, hvs⟩ := traverse_some_succ h
    subst hvs
    rcases List.mem_cons.mp hv with hv | hv
    · cases hv
      exact Relation.ReflTransGen.refl
    · rcases List.mem_flatten.mp hv with ⟨sub, hsubmem, hvsub⟩
      rcases mapO_mem hsubs sub hsubmem with ⟨k, hk, htr⟩
      have hkc : k ∈ childrenOf emails e.message_id := mem_sortedBy.mp hk
      have hkmem : k ∈ emails := (mem_childrenOf.mp hkc).1
      exact Relation.ReflTransGen.head ⟨hmem, hkc⟩ (ih k (pos + 1) sub hkmem htr v q hvsub)

/-- Every visited node is the start node or a child-table member. -/
theorem visit_member {emails : List Email} :
    ∀ (fuel : Nat) (e : Email) (pos : Nat) (vs : List (Email × Nat)),
      traverse emails fuel e pos = some vs →
      ∀ v q, (v, q) ∈ vs →
        v = e ∨ (v ∈ emails ∧ isRoot emails v = false) := by
  intro fuel
  induction fuel with
  | zero => intro e pos vs h; cases h
  | succ fuel ih =>
    intro e pos vs h v q hv
    obtain ⟨subs, hsubs, hvs⟩ := traverse_some_succ h
    subst hvs
    rcases List.mem_cons.mp hv with hv | hv
    · cases hv
      exact Or.inl rfl
    · rcases List.mem_flatten.mp hv with ⟨sub, hsubmem, hvsub⟩
      rcases mapO_mem hsubs sub hsubmem with ⟨k, hk, htr⟩
      rcases ih k (pos + 1) sub htr v q hvsub with hvk | hv'
      · have hkc := mem_childrenOf.mp (mem_sortedBy.mp hk)
        exact Or.inr ⟨hvk ▸ hkc.1, hvk ▸ hkc.2.1⟩
      · exact Or.inr hv'

/-- A root is visited only at position 0 in its own traversal. -/
theorem root_visit_zero {emails : List Email} {fuel : Nat} {r : Email}
    {vs : List (Email × Nat)} (hroot : isRoot emails r = true)
    (h : traverse emails fuel r 0 = some vs) :
    ∀ q, (r, q) ∈ vs → q = 0 := by
  intro q hq
  rcases visit_parent fuel r 0 vs h r q hq with ⟨_, hq0⟩ | ⟨u, p, _, _, hvc⟩
  · exact hq0
  · have := (mem_childrenOf.mp hvc).2.1
    rw [hroot] at this
    exact Bool.noConfusion this

/-- All visits of a given node in a root traversal share one position. -/
theorem visit_pos_unique {emails : List Email}
    (hclean : CleanIds emails) (huniq : UniqueIds emails)
    {fuel : Nat} {r : Email} {vs : List (Email × Nat)}
    (hrmem : r ∈ emails) (hroot : isRoot emails r = true)
    (h : traverse emails fuel r 0 = some vs) :
    ∀ q1 v q2, (v, q1) ∈ vs → (v, q2) ∈ vs → q1 = q2 := by
  intro q1
  induction q1 using Nat.strong_induction_on with
  | _ q1 ih =>
    intro v q2 h1 h2
    rcases visit_parent fuel r 0 vs h v q1 h1 with ⟨hvr, hq1⟩ | ⟨u1, p1, hu1, hq1, hv1⟩
    · subst hvr
      rw [hq1, (root_visit_zero hroot h q2 h2)]
    · rcases visit_parent fuel r 0 vs h v q2 h2 with ⟨hvr, _⟩ | ⟨u2, p2, hu2, hq2, hv2⟩
      · subst hvr
        have := (mem_childrenOf.mp hv1).2.1
        rw [hroot] at this
        exact Bool.noConfusion this
      · have hu1mem : u1 ∈ emails := by
          rcases visit_member fuel r 0 vs h u1 p1 hu1 with h' | h'
          · exact h' ▸ hrmem
          · exact h'.1
        have hu2mem : u2 ∈ emails := by
          rcases visit_member fuel r 0 vs h u2 p2 hu2 with h' | h'
          · exact h' ▸ hrmem
          · exact h'.1
        have hu : u1 = u2 := step_unique hclean huniq ⟨hu1mem, hv1⟩ ⟨hu2mem, hv2⟩
        subst hu
        have hp : p1 = p2 := ih p1 (by omega) u1 p2 hu1 hu2
        omega

/-- A child can never reach back to its parent (else the ancestor path
would repeat a node). -/
theorem no_backreach {emails : List Email}
    (hclean : CleanIds emails) (huniq : UniqueIds emails)
    {e k : Email} {anc : List Email} (hp : IsPathR emails e anc)
    (hk : k ∈ childrenOf emails e.message_id) (hr : Reach emails k e) : False := by
  have hpk : IsPathR emails k (e :: anc) := IsPathR.step hp hk
  rcases path_extend hr (e :: anc) hpk with heq | ⟨mid, hm⟩
  · subst heq
    have := path_nodup hclean huniq hpk
    exact (List.nodup_cons.mp this).1 (List.mem_cons_self _ _)
  · have := path_nodup hclean huniq hm
    have hmem : e ∈ mid ++ k :: e :: anc := by simp
    exact (List.nodup_cons.mp this).1 hmem

end EmailThreads

namespace EmailThreads

open PyStr

/-- Distinct root traversals never visit a common node. -/
theorem cross_root_exclusive {emails : List Email}
    (hclean : CleanIds emails) (huniq : UniqueIds emails)
    {r1 r2 : Email} {fuel1 fuel2 : Nat} {vs1 vs2 : List (Email × Nat)}
    (hr1 : r1 ∈ roots emails) (hr2 : r2 ∈ roots emails) (hne : r1 ≠ r2)
    (h1 : traverse emails fuel1 r1 0 = some vs1)
    (h2 : traverse emails fuel2 r2 0 = some vs2) :
    ∀ v q1 q2, (v, q1) ∈ vs1 → (v, q2) ∈ vs2 → False := by
  intro v q1 q2 hv1 hv2
  obtain ⟨hm1, hroot1⟩ := mem_roots.mp hr1
  obtain ⟨hm2, hroot2⟩ := mem_roots.mp hr2
  have hre1 : Reach emails r1 v := visit_reach fuel1 r1 0 vs1 hm1 h1 v q1 hv1
  have hre2 : Reach emails r2 v := visit_reach fuel2 r2 0 vs2 hm2 h2 v q2 hv2
  rcases reach_linear hclean huniq hre1 r2 hre2 with h | h
  · exact hne (reach_root_eq hroot2 h)
  · exact hne (reach_root_eq hroot1 h).symm

theorem mem_map_fst {α β : Type _} {v : α} {l : List (α × β)} :
    v ∈ l.map Prod.fst ↔ ∃ q, (v, q) ∈ l := by
  constructor
  · intro h
    rcases List.mem_map.mp h with ⟨⟨v1, q⟩, hmem, heq⟩
    exact ⟨q, by rwa [show v = v1 from heq.symm]⟩
  · intro ⟨q, h⟩
    exact List.mem_map.mpr ⟨(v, q), h, rfl⟩

/-- A path-anchored traversal visits each node at most once. -/
theorem visits_nodup {emails : List Email}
    (hclean : CleanIds emails) (huniq : UniqueIds emails)
    (hnodup : emails.Nodup) :
    ∀ (fuel : Nat) (e : Email) (anc : List Email) (pos : Nat)
      (vs : List (Email × Nat)),
      IsPathR emails e anc → traverse emails fuel e pos = some vs →
      (vs.map Prod.fst).Nodup := by
  intro fuel
  induction fuel with
  | zero => intro e anc pos vs _ h; cases h
  | succ fuel ih =>
    intro e anc pos vs hp h
    obtain ⟨subs, hsubs, hvs⟩ := traverse_some_succ h
    subst hvs
    have hemem : e ∈ emails := path_sub hp e (List.mem_cons_self _ _)
    have aux : ∀ (kids : List Email) (subs : List (List (Email × Nat))),
        (∀ k ∈ kids, k ∈ childrenOf emails e.message_id) → kids.Nodup →
        mapO (fun k => traverse emails fuel k (pos + 1)) kids = some subs →
        ((subs.flatten.map Prod.fst).Nodup ∧
          ∀ v ∈ subs.flatten.map Prod.fst, ∃ k ∈ kids, Reach emails k v) := by
      intro kids
      induction kids with
      | nil =>
        intro subs _ _ hm
        cases hm
        simp
      | cons k ks ihk =>
        intro subs hall hnd hm
        simp only [mapO] at hm
        cases hk : traverse emails fuel k (pos + 1) with
        | none => rw [hk] at hm; cases hm
        | some sub =>
          rw [hk] at hm
          cases hrest : mapO (fun k => traverse emails fuel k (pos + 1)) ks with
          | none => rw [hrest] at hm; cases hm
          | some rest =>
            rw [hrest] at hm
            cases hm
            have hkc : k ∈ childrenOf emails e.message_id :=
              hall k (List.mem_cons_self _ _)
            have hkpath : IsPathR emails k (e :: anc) := IsPathR.step hp hkc
            have hkmem : k ∈ emails := (mem_childrenOf.mp hkc).1
            obtain ⟨hrnd, hrreach⟩ := ihk rest
              (fun k' hk' => hall k' (List.mem_cons_of_mem _ hk'))
              (List.nodup_cons.mp hnd).2 hrest
            have hsubnd : (sub.map Prod.fst).Nodup :=
              ih k (e :: anc) (pos + 1) sub hkpath hk
            constructor
            · rw [List.flatten_cons, List.map_append, List.nodup_append]
              refine ⟨hsubnd, hrnd, ?_⟩
              intro v hvsub hvrest
              rcases mem_map_fst.mp hvsub with ⟨q1, hv1⟩
              rcases hrreach v hvrest with ⟨k', hk'mem, hk'reach⟩
              have hk'c : k' ∈ childrenOf emails e.message_id :=
                hall k' (List.mem_cons_of_mem _ hk'mem)
              have hkne : k ≠ k' := by
                intro hkk
                exact (List.nodup_cons.mp hnd).1 (hkk ▸ hk'mem)
              have hkreach : Reach emails k v :=
                visit_reach fuel k (pos + 1) sub hkmem hk v q1 hv1
              rcases reach_linear hclean huniq hkreach k' hk'reach with hlin | hlin
              · rcases Relation.ReflTransGen.cases_tail hlin with heq | ⟨w, hw, hwstep⟩
                · exact hkne heq.symm
                · have hwe : w = e := step_unique hclean huniq hwstep ⟨hemem, hk'c⟩
                  subst hwe
                  exact no_backreach hclean huniq hp hkc hw
              · rcases Relation.ReflTransGen.cases_tail hlin with heq | ⟨w, hw, hwstep⟩
                · exact hkne heq
                · have hwe : w = e := step_unique hclean huniq hwstep ⟨hemem, hkc⟩
                  subst hwe
                  exact no_backreach hclean huniq hp hk'c hw
            · intro v hv
              rw [List.flatten_cons, List.map_append, List.mem_append] at hv
              rcases hv with hv | hv
              · rcases mem_map_fst.mp hv with ⟨q1, hv1⟩
                exact ⟨k, List.mem_cons_self _ _,
                  visit_reach fuel k (pos + 1) sub hkmem hk v q1 hv1⟩
              · rcases hrreach v hv with ⟨k', hk'mem, hk'reach⟩
                exact ⟨k', List.mem_cons_of_mem _ hk'mem, hk'reach⟩
    have hkidsnd : (sortChildren (childrenOf emails e.message_id)).Nodup :=
      sortedBy_nodup (List.Nodup.filter _ hnodup)
    obtain ⟨hflatnd, hflatreach⟩ := aux _ subs (fun k hk => mem_sortedBy.mp hk)
      hkidsnd hsubs
    rw [List.map_cons]
    refine List.nodup_cons.mpr ⟨?_, hflatnd⟩
    intro hemem2
    rcases hflatreach e hemem2 with ⟨k, hkmem, hkreach⟩
    exact no_backreach hclean huniq hp (mem_sortedBy.mp hkmem) hkreach

end EmailThreads

namespace EmailThreads

open PyStr

/-- One per-thread write block of `build_thread_graph`. -/
def applyBlock (st : TState) (root : Email) (visits : List (Email × Nat)) : TState :=
  assignThreadMeta (assignPositions st visits) (threadIdOf root) visits.length visits

/-- The per-root step of the `build_thread_graph` fold. -/
def buildStep (emails : List Email) (acc : TState × List (Str × List Email))
    (root : Email) : Option (TState × List (Str × List Email)) :=
  (traverse emails emails.length root 0).map (fun visits =>
    (applyBlock acc.1 root visits,
      aset (threadIdOf root) (visits.map Prod.fst) acc.2))

theorem build_eq (emails : List Email) :
    build_thread_graph emails =
      (roots emails).foldlM (buildStep emails) (fun _ => blankInfo, []) := rfl

theorem assignPositions_untouched {st : TState} {v : Email} :
    ∀ {vs : List (Email × Nat)}, v ∉ vs.map Prod.fst →
      assignPositions st vs v = st v := by
  suffices H : ∀ (vs : List (Email × Nat)) (s : TState), v ∉ vs.map Prod.fst →
      assignPositions s vs v = s v by
    intro vs h; exact H vs st h
  intro vs
  induction vs with
  | nil => intro s _; rfl
  | cons ep rest ih =>
    intro s h
    rw [List.map_cons] at h
    have hne : ep.1 ≠ v := fun he => h (he ▸ List.mem_cons_self _ _)
    show assignPositions (Function.update s ep.1 _) rest v = s v
    rw [ih _ (fun hm => h (List.mem_cons_of_mem _ hm)), Function.update_noteq]
    exact fun he => hne he.symm

theorem assignPositions_touched {v : Email} {q : Nat} :
    ∀ {vs : List (Email × Nat)} (s : TState), (v, q) ∈ vs →
      (∀ p, (v, p) ∈ vs → p = q) →
      assignPositions s vs v = { s v with thread_position := some q } := by
  intro vs
  induction vs with
  | nil => intro s h; cases h
  | cons ep rest ih =>
    intro s hmem hall
    show assignPositions (Function.update s ep.1
      { s ep.1 with thread_position := some ep.2 }) rest v = _
    by_cases hv : ep.1 = v
    · have hpq : ep.2 = q := hall ep.2 (by rw [← hv]; exact List.mem_cons_self _ _)
      have hupd : Function.update s ep.1
          { s ep.1 with thread_position := some ep.2 } v =
          { s v with thread_position := some q } := by
        rw [← hv, Function.update_same, hpq]
      by_cases hrest : v ∈ rest.map Prod.fst
      · rcases mem_map_fst.mp hrest with ⟨p, hp⟩
        have hpq2 : p = q := hall p (List.mem_cons_of_mem _ hp)
        rw [ih _ (hpq2 ▸ hp) (fun p' hp' => hall p' (List.mem_cons_of_mem _ hp')),
          hupd]
      · rw [assignPositions_untouched hrest, hupd]
    · rcases List.mem_cons.mp hmem with hm | hm
      · exact absurd (congrArg Prod.fst hm).symm hv
      · have := ih (Function.update s ep.1
          { s ep.1 with thread_position := some ep.2 }) hm
          (fun p' hp' => hall p' (List.mem_cons_of_mem _ hp'))
        rw [this, Function.update_noteq (fun he => hv he.symm)]

theorem assignThreadMeta_untouched {st : TState} {tid : Str} {n : Nat} {v : Email} :
    ∀ {vs : List (Email × Nat)}, v ∉ vs.map Prod.fst →
      assignThreadMeta st tid n vs v = st v := by
  suffices H : ∀ (vs : List (Email × Nat)) (s : TState), v ∉ vs.map Prod.fst →
      assignThreadMeta s tid n vs v = s v by
    intro vs h; exact H vs st h
  intro vs
  induction vs with
  | nil => intro s _; rfl
  | cons ep rest ih =>
    intro s h
    rw [List.map_cons] at h
    have hne : ep.1 ≠ v := fun he => h (he ▸ List.mem_cons_self _ _)
    show assignThreadMeta (Function.update s ep.1 _) tid n rest v = s v
    rw [ih _ (fun hm => h (List.mem_cons_of_mem _ hm)), Function.update_noteq]
    exact fun he => hne he.symm

theorem assignThreadMeta_touched {tid : Str} {n : Nat} {v : Email} :
    ∀ {vs : List (Email × Nat)} (s : TState), v ∈ vs.map Prod.fst →
      assignThreadMeta s tid n vs v =
        { s v with thread_length := some n, thread_id := some tid } := by
  intro vs
  induction vs with
  | nil => intro s h; cases h
  | cons ep rest ih =>
    intro s hmem
    show assignThreadMeta (Function.update s ep.1
      { s ep.1 with thread_length := some n, thread_id := some tid }) tid n rest v = _
    by_cases hv : ep.1 = v
    · have hupd : Function.update s ep.1
          { s ep.1 with thread_length := some n, thread_id := some tid } v =
          { s v with thread_length := some n, thread_id := some tid } := by
        rw [← hv, Function.update_same]
      by_cases hrest : v ∈ rest.map Prod.fst
      · rw [ih _ hrest, hupd]
      · rw [assignThreadMeta_untouched hrest, hupd]
    · rcases List.mem_cons.mp hmem with hm | hm
      · exact absurd hm.symm hv
      · have := ih (Function.update s ep.1
          { s ep.1 with thread_length := some n, thread_id := some tid }) hm
        rw [this, Function.update_noteq (fun he => hv he.symm)]

end EmailThreads

namespace EmailThreads

open PyStr

theorem applyBlock_untouched {st : TState} {root v : Email}
    {visits : List (Email × Nat)} (h : v ∉ visits.map Prod.fst) :
    applyBlock st root visits v = st v := by
  unfold applyBlock
  rw [assignThreadMeta_untouched h, assignPositions_untouched h]

theorem applyBlock_touched {st : TState} {root v : Email} {q : Nat}
    {visits : List (Email × Nat)} (hmem : (v, q) ∈ visits)
    (hall : ∀ p, (v, p) ∈ visits → p = q) :
    applyBlock st root visits v =
      ⟨some q, some visits.length, some (threadIdOf root)⟩ := by
  unfold applyBlock
  rw [assignThreadMeta_touched _ (mem_map_fst.mpr ⟨q, hmem⟩),
    assignPositions_touched _ hmem hall]

/-- Writing thread metadata via `assignThreadMeta` never changes `thread_position`. -/
theorem assignThreadMeta_pos {tid : Str} {n : Nat} {v : Email} :
    ∀ {vs : List (Email × Nat)} (s : TState),
      (assignThreadMeta s tid n vs v).thread_position = (s v).thread_position := by
  intro vs
  induction vs with
  | nil => intro s; rfl
  | cons ep rest ih =>
    intro s
    show (assignThreadMeta (Function.update s ep.1 _) tid n rest v).thread_position = _
    rw [ih]
    by_cases hv : ep.1 = v
    · subst hv; rw [Function.update_same]
    · rw [Function.update_noteq (fun he => hv he.symm)]

/-- Writing positions via `assignPositions` never changes `thread_id`. -/
theorem assignPositions_tid {v : Email} :
    ∀ {vs : List (Email × Nat)} (s : TState),
      (assignPositions s vs v).thread_id = (s v).thread_id := by
  intro vs
  induction vs with
  | nil => intro s; rfl
  | cons ep rest ih =>
    intro s
    show (assignPositions (Function.update s ep.1 _) rest v).thread_id = _
    rw [ih]
    by_cases hv : ep.1 = v
    · subst hv; rw [Function.update_same]
    · rw [Function.update_noteq (fun he => hv he.symm)]

/-- Position provenance through `assignPositions`. -/
theorem assignPositions_pos_src {v : Email} {q : Nat} :
    ∀ {vs : List (Email × Nat)} (s : TState),
      (assignPositions s vs v).thread_position = some q →
      (s v).thread_position = some q ∨ (v, q) ∈ vs := by
  intro vs
  induction vs with
  | nil => intro s h; exact Or.inl h
  | cons ep rest ih =>
    intro s h
    replace h := ih (Function.update s ep.1
      { s ep.1 with thread_position := some ep.2 }) h
    rcases h with h | h
    · by_cases hv : ep.1 = v
      · subst hv
        rw [Function.update_same] at h
        simp only at h
        cases h
        exact Or.inr (List.mem_cons_self _ _)
      · rw [Function.update_noteq (fun he => hv he.symm)] at h
        exact Or.inl h
    · exact Or.inr (List.mem_cons_of_mem _ h)

/-- Thread-id provenance through `assignThreadMeta`. -/
theorem assignThreadMeta_tid_src {tid : Str} {n : Nat} {v : Email} {t : Str} :
    ∀ {vs : List (Email × Nat)} (s : TState),
      (assignThreadMeta s tid n vs v).thread_id = some t →
      (s v).thread_id = some t ∨ (v ∈ vs.map Prod.fst ∧ t = tid) := by
  intro vs
  induction vs with
  | nil => intro s h; exact Or.inl h
  | cons ep rest ih =>
    intro s h
    replace h := ih (Function.update s ep.1
      { s ep.1 with thread_length := some n, thread_id := some tid }) h
    rcases h with h | h
    · by_cases hv : ep.1 = v
      · subst hv
        rw [Function.update_same] at h
        simp only at h
        cases h
        exact Or.inr ⟨List.mem_map.mpr ⟨ep, List.mem_cons_self _ _, rfl⟩, rfl⟩
      · rw [Function.update_noteq (fun he => hv he.symm)] at h
        exact Or.inl h
    · exact Or.inr ⟨List.mem_cons_of_mem _ h.1, h.2⟩

end EmailThreads

namespace EmailThreads

open PyStr

theorem applyBlock_pos_src {s : TState} {root v : Email} {q : Nat}
    {vs : List (Email × Nat)}
    (h : (applyBlock s root vs v).thread_position = some q) :
    (s v).thread_position = some q ∨ (v, q) ∈ vs := by
  unfold applyBlock at h
  rw [assignThreadMeta_pos] at h
  exact assignPositions_pos_src _ h

theorem applyBlock_tid_src {s : TState} {root v : Email} {t : Str}
    {vs : List (Email × Nat)}
    (h : (applyBlock s root vs v).thread_id = some t) :
    (s v).thread_id = some t ∨ (v ∈ vs.map Prod.fst ∧ t = threadIdOf root) := by
  unfold applyBlock at h
  rcases assignThreadMeta_tid_src _ h with h | h
  · rw [assignPositions_tid] at h
    exact Or.inl h
  · exact Or.inr h

theorem foldlM_untouched {emails : List Email} {v : Email} :
    ∀ (l : List Email) (acc : TState × List (Str × List Email))
      (st : TState) (th : List (Str × List Email)),
      l.foldlM (buildStep emails) acc = some (st, th) →
      (∀ r ∈ l, ∀ vs, traverse emails emails.length r 0 = some vs →
        v ∉ vs.map Prod.fst) →
      st v = acc.1 v := by
  intro l
  induction l with
  | nil =>
    intro acc st th h _
    simp only [List.foldlM_nil] at h
    cases h
    rfl
  | cons r rest ih =>
    intro acc st th h hun
    rw [List.foldlM_cons] at h
    cases htr : traverse emails emails.length r 0 with
    | none => rw [buildStep, htr] at h; cases h
    | some vs =>
      rw [buildStep, htr] at h
      simp only [Option.map_some', Option.bind_eq_bind, Option.some_bind] at h
      rw [ih _ st th h (fun r' hr' => hun r' (List.mem_cons_of_mem _ hr'))]
      exact applyBlock_untouched (hun r (List.mem_cons_self _ _) vs htr)

theorem foldlM_final {emails : List Email} {v r : Email} {q : Nat}
    {vs : List (Email × Nat)} :
    ∀ (l : List Email) (acc : TState × List (Str × List Email))
      (st : TState) (th : List (Str × List Email)),
      l.foldlM (buildStep emails) acc = some (st, th) →
      l.Nodup → r ∈ l →
      traverse emails emails.length r 0 = some vs →
      (v, q) ∈ vs → (∀ p, (v, p) ∈ vs → p = q) →
      (∀ r' ∈ l, r' ≠ r → ∀ vs', traverse emails emails.length r' 0 = some vs' →
        v ∉ vs'.map Prod.fst) →
      st v = ⟨some q, some vs.length, some (threadIdOf r)⟩ := by
  intro l
  induction l with
  | nil => intro acc st th _ _ hr; cases hr
  | cons r0 rest ih =>
    intro acc st th h hnd hr htr hvq hall hexcl
    rw [List.foldlM_cons] at h
    rcases List.mem_cons.mp hr with hr0 | hr0
    · subst hr0
      rw [buildStep, htr] at h
      simp only [Option.map_some', Option.bind_eq_bind, Option.some_bind] at h
      have hafter : ∀ r' ∈ rest, ∀ vs',
          traverse emails emails.length r' 0 = some vs' → v ∉ vs'.map Prod.fst := by
        intro r' hr' vs' htr'
        have hne : r' ≠ r := by
          intro he
          exact (List.nodup_cons.mp hnd).1 (he ▸ hr')
        exact hexcl r' (List.mem_cons_of_mem _ hr') hne vs' htr'
      rw [foldlM_untouched _ _ st th h hafter]
      exact applyBlock_touched hvq hall
    · cases htr0 : traverse emails emails.length r0 0 with
      | none => rw [buildStep, htr0] at h; cases h
      | some vs0 =>
        rw [buildStep, htr0] at h
        simp only [Option.map_some', Option.bind_eq_bind, Option.some_bind] at h
        exact ih _ st th h (List.nodup_cons.mp hnd).2 hr0 htr hvq hall
          (fun r' hr' => hexcl r' (List.mem_cons_of_mem _ hr'))

theorem foldlM_pos_src {emails : List Email} {v : Email} {q : Nat} :
    ∀ (l : List Email) (acc : TState × List (Str × List Email))
      (st : TState) (th : List (Str × List Email)),
      l.foldlM (buildStep emails) acc = some (st, th) →
      (st v).thread_position = some q →
      (acc.1 v).thread_position = some q ∨
        ∃ r ∈ l, ∃ vs, traverse emails emails.length r 0 = some vs ∧
          (v, q) ∈ vs := by
  intro l
  induction l with
  | nil =>
    intro acc st th h hq
    simp only [List.foldlM_nil] at h
    cases h
    exact Or.inl hq
  | cons r0 rest ih =>
    intro acc st th h hq
    rw [List.foldlM_cons] at h
    cases htr0 : traverse emails emails.length r0 0 with
    | none => rw [buildStep, htr0] at h; cases h
    | some vs0 =>
      rw [buildStep, htr0] at h
      simp only [Option.map_some', Option.bind_eq_bind, Option.some_bind] at h
      rcases ih _ st th h hq with h' | ⟨r, hr, vs, htr, hvq⟩
      · rcases applyBlock_pos_src h' with h'' | h''
        · exact Or.inl h''
        · exact Or.inr ⟨r0, List.mem_cons_self _ _, vs0, htr0, h''⟩
      · exact Or.inr ⟨r, List.mem_cons_of_mem _ hr, vs, htr, hvq⟩

theorem foldlM_tid_src {emails : List Email} {v : Email} {t : Str} :
    ∀ (l : List Email) (acc : TState × List (Str × List Email))
      (st : TState) (th : List (Str × List Email)),
      l.foldlM (buildStep emails) acc = some (st, th) →
      (st v).thread_id = some t →
      (acc.1 v).thread_id = some t ∨
        ∃ r ∈ l, ∃ vs, traverse emails emails.length r 0 = some vs ∧
          v ∈ vs.map Prod.fst ∧ t = threadIdOf r := by
  intro l
  induction l with
  | nil =>
    intro acc st th h hq
    simp only [List.foldlM_nil] at h
    cases h
    exact Or.inl hq
  | cons r0 rest ih =>
    intro acc st th h hq
    rw [List.foldlM_cons] at h
    cases htr0 : traverse emails emails.length r0 0 with
    | none => rw [buildStep, htr0] at h; cases h
    | some vs0 =>
      rw [buildStep, htr0] at h
      simp only [Option.map_some', Option.bind_eq_bind, Option.some_bind] at h
      rcases ih _ st th h hq with h' | ⟨r, hr, vs, htr, hvq⟩
      · rcases applyBlock_tid_src h' with h'' | h''
        · exact Or.inl h''
        · exact Or.inr ⟨r0, List.mem_cons_self _ _, vs0, htr0, h''⟩
      · exact Or.inr ⟨r, List.mem_cons_of_mem _ hr, vs, htr, hvq⟩

/-- Any assigned `thread_position` comes from a visit in a root traversal. -/
theorem final_pos_src {emails : List Email} {st : TState}
    {th : List (Str × List Email)} {v : Email} {q : Nat}
    (hb : build_thread_graph emails = some (st, th))
    (hq : (st v).thread_position = some q) :
    ∃ r ∈ roots emails, ∃ vs,
      traverse emails emails.length r 0 = some vs ∧ (v, q) ∈ vs := by
  rw [build_eq] at hb
  rcases foldlM_pos_src _ _ st th hb hq with h | h
  · cases h
  · exact h

/-- Any assigned `thread_id` comes from a visit in a root traversal. -/
theorem final_tid_src {emails : List Email} {st : TState}
    {th : List (Str × List Email)} {v : Email} {t : Str}
    (hb : build_thread_graph emails = some (st, th))
    (ht : (st v).thread_id = some t) :
    ∃ r ∈ roots emails, ∃ vs,
      traverse emails emails.length r 0 = some vs ∧
      v ∈ vs.map Prod.fst ∧ t = threadIdOf r := by
  rw [build_eq] at hb
  rcases foldlM_tid_src _ _ st th hb ht with h | h
  · cases h
  · exact h

/-- The final metadata of any visited node: its (unique) visit position,
the size of its thread, and its root's thread id. -/
theorem final_value {emails : List Email}
    (hclean : CleanIds emails) (huniq : UniqueIds emails) (hnodup : emails.Nodup)
    {st : TState} {th : List (Str × List Email)} {r v : Email} {q : Nat}
    {vs : List (Email × Nat)}
    (hb : build_thread_graph emails = some (st, th))
    (hr : r ∈ roots emails)
    (htr : traverse emails emails.length r 0 = some vs)
    (hvq : (v, q) ∈ vs) :
    st v = ⟨some q, some vs.length, some (threadIdOf r)⟩ := by
  rw [build_eq] at hb
  obtain ⟨hrmem, hroot⟩ := mem_roots.mp hr
  refine foldlM_final _ _ st th hb (List.Nodup.filter _ hnodup) hr htr hvq ?_ ?_
  · intro p hp
    exact visit_pos_unique hclean huniq hrmem hroot htr p v q hp hvq
  · intro r' hr' hne vs' htr' hm
    rcases mem_map_fst.mp hm with ⟨q', hq'⟩
    exact cross_root_exclusive hclean huniq hr' hr hne htr' htr v q' q hq' hvq

end EmailThreads

/-!
## Claims about thread reconstruction (C1, C2, C3, C6, C7)
-/

namespace EmailThreads

open PyStr

/-- When a build succeeded but a node was never visited, its record keeps
the blank metadata. -/
theorem final_blank {emails : List Email} {st : TState}
    {th : List (Str × List Email)} {v : Email}
    (hb : build_thread_graph emails = some (st, th))
    (hun : ∀ r ∈ roots emails, ∀ vs,
      traverse emails emails.length r 0 = some vs → v ∉ vs.map Prod.fst) :
    st v = blankInfo := by
  rw [build_eq] at hb
  exact foldlM_untouched _ _ st th hb hun

/-- Root thread ids are pairwise injective under the id hypotheses. -/
theorem roots_tid_inj {emails : List Email}
    (hclean : CleanIds emails) (huniq : UniqueIds emails)
    (hfiles : (emails.map Email.file).Nodup)
    (htid : ∀ a ∈ emails, ∀ b ∈ emails, a.message_id ≠ [] → a.message_id ≠ b.file)
    {r r' : Email} (hr : r ∈ roots emails) (hr' : r' ∈ roots emails)
    (he : threadIdOf r = threadIdOf r') : r = r' := by
  obtain ⟨hrm, _⟩ := mem_roots.mp hr
  obtain ⟨hrm', _⟩ := mem_roots.mp hr'
  unfold threadIdOf at he
  by_cases h1 : r.message_id = []
  · by_cases h2 : r'.message_id = []
    · rw [if_neg (fun hc => hc h1), if_neg (fun hc => hc h2)] at he
      exact List.inj_on_of_nodup_map hfiles hrm hrm' he
    · rw [if_neg (fun hc => hc h1), if_pos h2] at he
      exact absurd he.symm (htid r' hrm' r hrm h2)
  · by_cases h2 : r'.message_id = []
    · rw [if_pos h1, if_neg (fun hc => hc h2)] at he
      exact absurd he (htid r hrm r' hrm' h1)
    · rw [if_pos h1, if_pos h2] at he
      refine huniq r hrm r' hrm' ?_ ?_
      · rw [(hclean r hrm).1]; exact h1
      · rw [(hclean r hrm).1, (hclean r' hrm').1]; exact he

/-- C1 (amended): a document with no `in_reply_to` or an unresolvable one
(a thread root) is assigned `thread_position` 0 — not 1 — and `thread_id`
equal to its raw `message_id`, or its file path when the `message_id` is
empty. -/
theorem c1_root_assignment {emails : List Email}
    (hclean : CleanIds emails) (huniq : UniqueIds emails)
    (hfiles : (emails.map Email.file).Nodup)
    {st : TState} {th : List (Str × List Email)} {d : Email}
    (hb : build_thread_graph emails = some (st, th))
    (hd : d ∈ emails) (hroot : isRoot emails d = true) :
    (st d).thread_position = some 0 ∧ (st d).thread_id = some (threadIdOf d) := by
  have hnodup : emails.Nodup := List.Nodup.of_map _ hfiles
  have hr : d ∈ roots emails := mem_roots.mpr ⟨hd, hroot⟩
  have hs : (traverse emails emails.length d 0).isSome :=
    traverse_root_isSome hclean huniq hr
  rw [Option.isSome_iff_exists] at hs
  obtain ⟨vs, hvs⟩ := hs
  have hv0 : (d, 0) ∈ vs := visit_self hvs
  have := final_value hclean huniq hnodup hb hr hvs hv0
  rw [this]
  exact ⟨rfl, rfl⟩

def c1email : Email := ⟨lit "a.md", lit "m1", [], []⟩

/-- C1, counterexample to the claim as stated: a standalone document is a
thread root, and the code assigns it `thread_position` 0, not 1 (the
script's own docstring says "0 = root, 1+ = replies"). -/
theorem c1_counterexample :
    (build_thread_graph [c1email]).map
      (fun pr => (pr.1 c1email).thread_position) = some (some 0) ∧
    (build_thread_graph [c1email]).map
      (fun pr => (pr.1 c1email).thread_position) ≠ some (some 1) := by
  constructor
  · decide
  · decide

/-- C1, witness: the amended theorem applied to a concrete one-root scan. -/
theorem c1_witness :
    ∃ st th, build_thread_graph [c1email] = some (st, th) ∧
      (st c1email).thread_position = some 0 ∧
      (st c1email).thread_id = some (threadIdOf c1email) := by
  cases hb : build_thread_graph [c1email] with
  | none =>
    have hs : (build_thread_graph [c1email]).isSome = true := by decide
    rw [hb] at hs
    cases hs
  | some pr =>
    refine ⟨pr.1, pr.2, rfl, ?_⟩
    exact c1_root_assignment (by decide) (by decide) (by decide) hb
      (by decide) (by decide)

/-- C2 (amended): `thread_position` increases strictly along any reply path
(each reply sits exactly one deeper than its parent); however it is not
unique within a thread — siblings share the same position (see the
counterexample). -/
theorem c2_position_increase {emails : List Email}
    (hclean : CleanIds emails) (huniq : UniqueIds emails)
    (hfiles : (emails.map Email.file).Nodup)
    {st : TState} {th : List (Str × List Email)} {p d : Email} {qp : Nat}
    (hb : build_thread_graph emails = some (st, th))
    (hd : d ∈ childrenOf emails p.message_id)
    (hqp : (st p).thread_position = some qp) :
    ∃ qd, (st d).thread_position = some qd ∧ qp < qd := by
  have hnodup : emails.Nodup := List.Nodup.of_map _ hfiles
  obtain ⟨r, hr, vs, htr, hpv⟩ := final_pos_src hb hqp
  have hdv : (d, qp + 1) ∈ vs :=
    visit_kids emails.length r 0 vs htr p qp hpv d hd
  have := final_value hclean huniq hnodup hb hr htr hdv
  exact ⟨qp + 1, by rw [this], by omega⟩

def c2rootA : Email := ⟨lit "a.md", lit "m1", [], []⟩
def c2replyB : Email := ⟨lit "b.md", lit "m2", lit "m1", lit "1"⟩
def c2replyC : Email := ⟨lit "c.md", lit "m3", lit "m1", lit "2"⟩

/-- C2, counterexample to the claim as stated: two sibling replies to the
same root end up in the same thread with the same `thread_position` (the
code assigns depth, parent position + 1, not a unique rank), so
`thread_position` is not unique within a `thread_id`. -/
theorem c2_counterexample :
    (build_thread_graph [c2rootA, c2replyB, c2replyC]).map
      (fun pr => ((pr.1 c2replyB).thread_id, (pr.1 c2replyC).thread_id,
        (pr.1 c2replyB).thread_position, (pr.1 c2replyC).thread_position)) =
      some (some (lit "m1"), some (lit "m1"), some 1, some 1) ∧
    c2replyB ≠ c2replyC := by
  constructor
  · decide
  · decide

/-- C2, witness: the amended theorem applied to a concrete parent/child. -/
theorem c2_witness :
    ∃ st th, build_thread_graph [c2rootA, c2replyB, c2replyC] = some (st, th) ∧
      ∃ qd, (st c2replyB).thread_position = some qd ∧ 0 < qd := by
  have h0 : (build_thread_graph [c2rootA, c2replyB, c2replyC]).map
      (fun pr => (pr.1 c2rootA).thread_position) = some (some 0) := by decide
  cases hb : build_thread_graph [c2rootA, c2replyB, c2replyC] with
  | none => rw [hb] at h0; cases h0
  | some pr =>
    rw [hb, Option.map_some'] at h0
    have h0' : (pr.1 c2rootA).thread_position = some 0 := by injection h0
    exact ⟨pr.1, pr.2, rfl,
      c2_position_increase (by decide) (by decide) (by decide) hb (by decide) h0'⟩

end EmailThreads

namespace EmailThreads

open PyStr

/-- C3 (amended): on any scan with clean, unique message ids — cyclic
`in_reply_to` chains included — thread graph construction terminates and
raises nothing; but a document on a cycle is unreachable from every root,
so it is silently omitted from every thread and receives no thread
metadata at all (no truncated partial traversal of the chain occurs). -/
theorem c3_terminates_cycles_dropped {emails : List Email}
    (hclean : CleanIds emails) (huniq : UniqueIds emails) :
    (build_thread_graph emails).isSome ∧
      ∀ st th, build_thread_graph emails = some (st, th) →
        ∀ v, (¬ ∃ r ∈ roots emails, Reach emails r v) → st v = blankInfo := by
  refine ⟨build_isSome hclean huniq, ?_⟩
  intro st th hb v hnr
  refine final_blank hb ?_
  intro r hr vs htr hm
  rcases mem_map_fst.mp hm with ⟨q, hq⟩
  have hrmem : r ∈ emails := (mem_roots.mp hr).1
  exact hnr ⟨r, hr, visit_reach emails.length r 0 vs hrmem htr v q hq⟩

def c3cycleX : Email := ⟨lit "x.md", lit "m1", lit "m2", []⟩
def c3cycleY : Email := ⟨lit "y.md", lit "m2", lit "m1", []⟩

/-- C3, counterexample to the claim as stated: on a two-cycle the build
terminates, but neither document is ever visited — the `threads` table is
empty and both records keep blank thread metadata, so no traversal is
"truncated at the first revisited node"; the cycle is dropped wholesale. -/
theorem c3_counterexample :
    (build_thread_graph [c3cycleX, c3cycleY]).map
      (fun pr => (pr.2, pr.1 c3cycleX, pr.1 c3cycleY)) =
      some ([], blankInfo, blankInfo) ∧
    ([c3cycleX, c3cycleY] : List Email) ≠ [] := by
  constructor
  · decide
  · decide

/-- C3, witness: the amended theorem applied to the concrete two-cycle. -/
theorem c3_witness :
    ∃ st th, build_thread_graph [c3cycleX, c3cycleY] = some (st, th) ∧
      st c3cycleX = blankInfo := by
  have h := @c3_terminates_cycles_dropped [c3cycleX, c3cycleY]
    (by decide) (by decide)
  obtain ⟨hs, hblank⟩ := h
  rw [Option.isSome_iff_exists] at hs
  obtain ⟨pr, hpr⟩ := hs
  refine ⟨pr.1, pr.2, hpr, ?_⟩
  refine hblank pr.1 pr.2 hpr c3cycleX ?_
  rintro ⟨r, hr, -⟩
  have hroots : roots [c3cycleX, c3cycleY] = [] := by decide
  rw [hroots] at hr
  cases hr

/-- C6 (amended): a document with a nonempty `message_id` whose
`in_reply_to` resolves to parent P is assigned `thread_position`
= P's position + 1 (hence strictly greater) and P's `thread_id`; the
original claim fails for documents without a `message_id`, which the code
classifies as standalone roots even when their `in_reply_to` resolves. -/
theorem c6_reply_assignment {emails : List Email}
    (hclean : CleanIds emails) (huniq : UniqueIds emails)
    (hfiles : (emails.map Email.file).Nodup)
    {st : TState} {th : List (Str × List Email)} {d p : Email} {qp : Nat}
    (hb : build_thread_graph emails = some (st, th))
    (hd : d ∈ emails) (hmsg : strip d.message_id ≠ [])
    (hres : alookup (strip d.in_reply_to) (by_message_id emails) = some p)
    (hqp : (st p).thread_position = some qp) :
    (st d).thread_position = some (qp + 1) ∧
      (st d).thread_id = (st p).thread_id := by
  have hnodup : emails.Nodup := List.Nodup.of_map _ hfiles
  obtain ⟨hpmem, hpstrip, hkne⟩ := resolvable_lookup hres
  have hkey : strip d.in_reply_to = p.message_id := by
    rw [← (hclean p hpmem).1, hpstrip]
  have hrootd : isRoot emails d = false := by
    unfold isRoot
    rw [Bool.or_eq_false_iff, Bool.or_eq_false_iff]
    refine ⟨⟨by simpa using hmsg, by simpa using hkne⟩, ?_⟩
    unfold resolvable
    rw [hres]
    rfl
  have hchild : d ∈ childrenOf emails p.message_id :=
    mem_childrenOf.mpr ⟨hd, hrootd, hkey⟩
  obtain ⟨r, hr, vs, htr, hpv⟩ := final_pos_src hb hqp
  have hdv : (d, qp + 1) ∈ vs :=
    visit_kids emails.length r 0 vs htr p qp hpv d hchild
  have hdval := final_value hclean huniq hnodup hb hr htr hdv
  have hpval := final_value hclean huniq hnodup hb hr htr hpv
  rw [hdval, hpval]
  exact ⟨rfl, rfl⟩

def c6parent : Email := ⟨lit "p.md", lit "m1", [], []⟩
def c6orphan : Email := ⟨lit "d.md", [], lit "m1", []⟩

/-- C6, counterexample to the claim as stated: a document with no
`message_id` but a resolvable `in_reply_to` is treated as a standalone
root: its position equals (does not exceed) the parent's, and its
`thread_id` is its own file path, not the parent's thread id. -/
theorem c6_counterexample :
    (build_thread_graph [c6parent, c6orphan]).map
      (fun pr => ((pr.1 c6parent).thread_position,
        (pr.1 c6orphan).thread_position,
        (pr.1 c6parent).thread_id, (pr.1 c6orphan).thread_id)) =
      some (some 0, some 0, some (lit "m1"), some (lit "d.md")) ∧
    (alookup (PyStr.strip c6orphan.in_reply_to)
      (by_message_id [c6parent, c6orphan]) = some c6parent) ∧
    lit "m1" ≠ lit "d.md" := by
  refine ⟨?_, ?_, ?_⟩
  · decide
  · decide
  · decide

def c6rootA : Email := ⟨lit "a.md", lit "m1", [], []⟩
def c6replyB : Email := ⟨lit "b.md", lit "m2", lit "m1", lit "1"⟩

/-- C6, witness: the amended theorem applied to a concrete reply. -/
theorem c6_witness :
    ∃ st th, build_thread_graph [c6rootA, c6replyB] = some (st, th) ∧
      (st c6replyB).thread_position = some 1 ∧
      (st c6replyB).thread_id = (st c6rootA).thread_id := by
  have h0 : (build_thread_graph [c6rootA, c6replyB]).map
      (fun pr => (pr.1 c6rootA).thread_position) = some (some 0) := by decide
  cases hb : build_thread_graph [c6rootA, c6replyB] with
  | none => rw [hb] at h0; cases h0
  | some pr =>
    rw [hb, Option.map_some'] at h0
    have h0' : (pr.1 c6rootA).thread_position = some 0 := by injection h0
    have := c6_reply_assignment (d := c6replyB) (p := c6rootA)
      (by decide) (by decide) (by decide) hb (by decide) (by decide) (by decide) h0'
    exact ⟨pr.1, pr.2, rfl, this.1, this.2⟩

end EmailThreads

namespace EmailThreads

open PyStr

/-- C7 (amended): provided distinct thread roots carry distinct thread ids
(no email's raw `message_id` equals another email's file path — the
threads-table keys then never collide), every document assigned a
`thread_id` has `thread_length` equal to the number of scanned documents
assigned that same `thread_id`; in particular the value is identical for
all documents sharing a `thread_id`. -/
theorem c7_thread_length {emails : List Email}
    (hclean : CleanIds emails) (huniq : UniqueIds emails)
    (hfiles : (emails.map Email.file).Nodup)
    (htid : ∀ a ∈ emails, ∀ b ∈ emails, a.message_id ≠ [] → a.message_id ≠ b.file)
    {st : TState} {th : List (Str × List Email)} {d : Email} {t : Str}
    (hb : build_thread_graph emails = some (st, th))
    (ht : (st d).thread_id = some t) :
    (st d).thread_length =
      some ((emails.filter (fun x => decide ((st x).thread_id = some t))).length) := by
  have hnodup : emails.Nodup := List.Nodup.of_map _ hfiles
  obtain ⟨r, hr, vs, htr, hdv, htv⟩ := final_tid_src hb ht
  obtain ⟨hrmem, hroot⟩ := mem_roots.mp hr
  -- every email assigned thread id `t` is exactly a visit of `r`'s traversal
  have hiff : ∀ x, (st x).thread_id = some t ↔ x ∈ vs.map Prod.fst := by
    intro x
    constructor
    · intro hx
      obtain ⟨r', hr', vs', htr', hxv', htv'⟩ := final_tid_src hb hx
      have hrr : r' = r :=
        roots_tid_inj hclean huniq hfiles htid hr' hr (by rw [← htv', ← htv])
      subst hrr
      rw [htr'] at htr
      cases htr
      exact hxv'
    · intro hx
      rcases mem_map_fst.mp hx with ⟨q, hq⟩
      rw [final_value hclean huniq hnodup hb hr htr hq, htv]
  -- the visited nodes of the thread, with multiplicity one
  have hvnd : (vs.map Prod.fst).Nodup :=
    visits_nodup hclean huniq hnodup emails.length r [] 0 vs
      (IsPathR.root hrmem hroot) htr
  have hsubE : ∀ x ∈ vs.map Prod.fst, x ∈ emails := by
    intro x hx
    rcases mem_map_fst.mp hx with ⟨q, hq⟩
    rcases visit_member emails.length r 0 vs htr x q hq with hx' | hx'
    · exact hx' ▸ hrmem
    · exact hx'.1
  have hperm : List.Perm
      (emails.filter (fun x => decide ((st x).thread_id = some t)))
      (vs.map Prod.fst) := by
    rw [List.perm_ext_iff_of_nodup (List.Nodup.filter _ hnodup) hvnd]
    intro x
    rw [List.mem_filter]
    constructor
    · intro ⟨_, hx⟩
      exact (hiff x).mp (of_decide_eq_true hx)
    · intro hx
      exact ⟨hsubE x hx, decide_eq_true ((hiff x).mpr hx)⟩
  -- the document's stored length is the visit count
  have hdlen : (st d).thread_length = some vs.length := by
    rcases mem_map_fst.mp hdv with ⟨q, hq⟩
    rw [final_value hclean huniq hnodup hb hr htr hq]
  rw [hdlen, hperm.length_eq, List.length_map]

def c7rootQ : Email := ⟨lit "q.md", lit "p.md", [], []⟩
def c7reply : Email := ⟨lit "c.md", lit "m2", lit "p.md", lit "1"⟩
def c7rootP : Email := ⟨lit "p.md", [], [], []⟩

/-- C7, counterexample to the claim as stated: when a root's `message_id`
equals another root's file path, two different threads share one
`thread_id`, and documents sharing that `thread_id` carry different
`thread_length` values (2 and 1), neither equal to the number (3) of
documents assigned the id. -/
theorem c7_counterexample :
    (build_thread_graph [c7rootQ, c7reply, c7rootP]).map
      (fun pr => ((pr.1 c7rootQ).thread_id, (pr.1 c7reply).thread_id,
        (pr.1 c7rootP).thread_id)) =
      some (some (lit "p.md"), some (lit "p.md"), some (lit "p.md")) ∧
    (build_thread_graph [c7rootQ, c7reply, c7rootP]).map
      (fun pr => ((pr.1 c7rootQ).thread_length, (pr.1 c7rootP).thread_length)) =
      some (some 2, some 1) ∧
    (2 : Nat) ≠ 1 := by
  refine ⟨?_, ?_, ?_⟩
  · decide
  · decide
  · decide

/-- C7, witness: the amended theorem applied to a concrete two-email
thread. -/
theorem c7_witness :
    ∃ st th, build_thread_graph [c6rootA, c6replyB] = some (st, th) ∧
      (st c6replyB).thread_id = some (lit "m1") ∧
      (st c6replyB).thread_length =
        some (([c6rootA, c6replyB].filter
          (fun x => decide ((st x).thread_id = some (lit "m1")))).length) := by
  have h0 : (build_thread_graph [c6rootA, c6replyB]).map
      (fun pr => (pr.1 c6replyB).thread_id) = some (some (lit "m1")) := by decide
  cases hb : build_thread_graph [c6rootA, c6replyB] with
  | none => rw [hb] at h0; cases h0
  | some pr =>
    rw [hb, Option.map_some'] at h0
    have h0' : (pr.1 c6replyB).thread_id = some (lit "m1") := by injection h0
    exact ⟨pr.1, pr.2, rfl, h0',
      c7_thread_length (by decide) (by decide) (by decide) (by decide) hb h0'⟩

end EmailThreads

/-!
## String lemmas for the frontmatter parser
-/

namespace PyStr

theorem isPrefixOf_eq_true_iff {p s : Str} :
    List.isPrefixOf p s = true ↔ ∃ t, p ++ t = s := by
  induction p generalizing s with
  | nil => simp [List.isPrefixOf]
  | cons c cs ih =>
    cases s with
    | nil => simp [List.isPrefixOf]
    | cons d ds =>
      simp only [List.isPrefixOf, Bool.and_eq_true, beq_iff_eq, ih]
      constructor
      · intro ⟨hcd, t, ht⟩
        exact ⟨t, by rw [hcd, List.cons_append, ht]⟩
      · intro ⟨t, ht⟩
        injection ht with h1 h2
        exact ⟨h1, t, h2⟩

theorem dropWhile_len_le {p : Char → Bool} (l : Str) :
    (List.dropWhile p l).length ≤ l.length := by
  induction l with
  | nil => simp
  | cons c t ih =>
    rw [List.dropWhile_cons]
    by_cases hc : p c = true
    · rw [if_pos hc]
      simp only [List.length_cons]
      omega
    · rw [if_neg hc]

theorem dropWhile_cons_self {p : Char → Bool} {c : Char} {t : Str}
    (h : List.dropWhile p (c :: t) = c :: t) : p c = false := by
  by_cases hc : p c = true
  · rw [List.dropWhile_cons, if_pos hc] at h
    have := dropWhile_len_le (p := p) t
    rw [h] at this
    simp at this
  · simpa using hc

theorem dropWhile_idem {p : Char → Bool} (l : Str) :
    List.dropWhile p (List.dropWhile p l) = List.dropWhile p l := by
  induction l with
  | nil => rfl
  | cons c t ih =>
    rw [List.dropWhile_cons]
    by_cases hc : p c = true
    · rw [if_pos hc]; exact ih
    · rw [if_neg hc, List.dropWhile_cons,
        if_neg (by simpa using hc)]

theorem dropWhile_suffix_ex {p : Char → Bool} (l : Str) :
    ∃ t, t ++ List.dropWhile p l = l := by
  induction l with
  | nil => exact ⟨[], rfl⟩
  | cons c t ih =>
    rw [List.dropWhile_cons]
    by_cases hc : p c = true
    · rw [if_pos hc]
      obtain ⟨u, hu⟩ := ih
      exact ⟨c :: u, by rw [List.cons_append, hu]⟩
    · rw [if_neg hc]
      exact ⟨[], rfl⟩

theorem lstrip_suffix_ex (s : Str) : ∃ t, t ++ lstrip s = s :=
  dropWhile_suffix_ex s

theorem rstrip_ex (s : Str) : ∃ t, rstrip s ++ t = s := by
  obtain ⟨t, ht⟩ := dropWhile_suffix_ex (p := isSpaceChar) s.reverse
  refine ⟨t.reverse, ?_⟩
  have := congrArg List.reverse ht
  rwa [List.reverse_append, List.reverse_reverse] at this

theorem lstrip_cons_not_space {c : Char} {t : Str} (h : isSpaceChar c = false) :
    lstrip (c :: t) = c :: t := by
  rw [lstrip, List.dropWhile_cons, if_neg (by simpa using h)]

theorem lstrip_idem (s : Str) : lstrip (lstrip s) = lstrip s :=
  dropWhile_idem s

theorem rstrip_idem (s : Str) : rstrip (rstrip s) = rstrip s := by
  unfold rstrip
  rw [List.reverse_reverse, dropWhile_idem]

/-- A nonempty `rstrip`-fixed string ends in a non-space character, so
appending it to anything is again `rstrip`-fixed. -/
theorem rstrip_append_fixed {i : Str} (hne : i ≠ []) (hfix : rstrip i = i) :
    ∀ x : Str, rstrip (x ++ i) = x ++ i := by
  intro x
  have hrev : List.dropWhile isSpaceChar i.reverse = i.reverse := by
    have := congrArg List.reverse hfix
    rwa [rstrip, List.reverse_reverse] at this
  cases hi : i.reverse with
  | nil =>
    exfalso
    exact hne (by simpa using congrArg List.reverse hi)
  | cons c t =>
    rw [hi] at hrev
    have hc : isSpaceChar c = false := dropWhile_cons_self hrev
    unfold rstrip
    rw [List.reverse_append, hi, List.cons_append, List.dropWhile_cons,
      if_neg (by simpa using hc), ← List.cons_append, ← hi,
      List.reverse_append, List.reverse_reverse, List.reverse_reverse]

theorem eq_of_append_left {x s : Str} (h : ∃ t, t ++ x = s)
    (hlen : s.length ≤ x.length) : x = s := by
  obtain ⟨t, ht⟩ := h
  have : t = [] := by
    have := congrArg List.length ht
    rw [List.length_append] at this
    cases t with
    | nil => rfl
    | cons a b => simp at this; omega
  rw [this] at ht
  simpa using ht

theorem eq_of_append_right {x s : Str} (h : ∃ t, x ++ t = s)
    (hlen : s.length ≤ x.length) : x = s := by
  obtain ⟨t, ht⟩ := h
  have : t = [] := by
    have := congrArg List.length ht
    rw [List.length_append] at this
    cases t with
    | nil => rfl
    | cons a b => simp at this; omega
  rw [this] at ht
  simpa using ht

theorem strip_fixed_parts {s : Str} (h : strip s = s) :
    lstrip s = s ∧ rstrip s = s := by
  have h1 : ∃ t, t ++ lstrip s = s := lstrip_suffix_ex s
  have h2 : ∃ t, rstrip (lstrip s) ++ t = lstrip s := rstrip_ex (lstrip s)
  have hlen1 : (lstrip s).length ≤ s.length := by
    obtain ⟨t, ht⟩ := h1
    have := congrArg List.length ht
    rw [List.length_append] at this
    omega
  have hlen2 : (strip s).length ≤ (lstrip s).length := by
    obtain ⟨t, ht⟩ := h2
    have := congrArg List.length ht
    rw [List.length_append] at this
    rw [strip]
    omega
  rw [h] at hlen2
  have hl : lstrip s = s := by
    obtain ⟨t, ht⟩ := h1
    have : t = [] := by
      have := congrArg List.length ht
      rw [List.length_append] at this
      cases t with
      | nil => rfl
      | cons a b => exfalso; simp at this; omega
    rw [this] at ht
    simpa using ht
  refine ⟨hl, ?_⟩
  have : strip s = rstrip (lstrip s) := rfl
  rw [hl] at this
  rw [← this, h]

/-- When the head of a string is fixed by `lstrip`, it is not a space. -/
theorem head_not_space {c : Char} {t : Str} (h : lstrip (c :: t) = c :: t) :
    isSpaceChar c = false :=
  dropWhile_cons_self h

theorem strip_idem (s : Str) : strip (strip s) = strip s := by
  have h2 : ∃ t, rstrip (lstrip s) ++ t = lstrip s := rstrip_ex (lstrip s)
  have hfix : lstrip (rstrip (lstrip s)) = rstrip (lstrip s) := by
    cases hy : lstrip s with
    | nil => rfl
    | cons c u =>
      have hc : isSpaceChar c = false := by
        refine head_not_space (c := c) (t := u) ?_
        rw [← hy]
        exact lstrip_idem s
      rw [hy] at h2
      obtain ⟨t, ht⟩ := h2
      cases hr : rstrip (c :: u) with
      | nil => rfl
      | cons d v =>
        rw [hr] at ht
        have hd : d = c := by
          rw [List.cons_append] at ht
          injection ht
        rw [hd]
        exact lstrip_cons_not_space hc
  show rstrip (lstrip (rstrip (lstrip s))) = rstrip (lstrip s)
  rw [hfix, rstrip_idem]

end PyStr

namespace PyStr

/-- Characterisation of a successful substring search. -/
theorem findAux_spec {sub : Str} :
    ∀ (s : Str) (d : Nat),
      (∀ j, j < d → List.isPrefixOf sub (s.drop j) = false) →
      List.isPrefixOf sub (s.drop d) = true →
      ∀ i0, findAux sub s i0 = some (i0 + d) := by
  intro s
  induction s generalizing sub with
  | nil =>
    intro d hbefore hat i0
    cases d with
    | zero =>
      simp only [List.drop_nil] at hat
      have : sub = [] := by
        rcases isPrefixOf_eq_true_iff.mp hat with ⟨t, ht⟩
        simpa using List.append_eq_nil.mp ht |>.1
      simp [findAux, this]
    | succ d =>
      have h0 := hbefore 0 (by omega)
      simp only [List.drop_nil] at h0 hat
      rw [h0] at hat
      cases hat
  | cons c rest ih =>
    intro d hbefore hat i0
    cases d with
    | zero =>
      simp only [List.drop] at hat
      simp [findAux, hat]
    | succ d =>
      have h0 := hbefore 0 (by omega)
      simp only [List.drop] at h0 hat
      show (if List.isPrefixOf sub (c :: rest) = true then some i0
        else findAux sub rest (i0 + 1)) = some (i0 + (d + 1))
      rw [if_neg (by simp [h0])]
      have := @ih sub d
        (fun j hj => hbefore (j + 1) (by omega)) hat (i0 + 1)
      rw [this]
      congr 1
      omega

/-- A search succeeds exactly when an occurrence exists. -/
theorem findAux_isSome_iff {sub : Str} :
    ∀ {s : Str} {i0 : Nat},
      (findAux sub s i0).isSome ↔ ∃ j, List.isPrefixOf sub (s.drop j) = true := by
  intro s
  induction s with
  | nil =>
    intro i0
    simp only [findAux, List.drop_nil]
    by_cases he : sub.isEmpty
    · have hs : sub = [] := by simpa [List.isEmpty_iff] using he
      subst hs
      simp [List.isPrefixOf]
    · have hs : sub ≠ [] := by simpa [List.isEmpty_iff] using he
      rw [if_neg he]
      refine iff_of_false (by simp) ?_
      rintro ⟨j, hj⟩
      rcases isPrefixOf_eq_true_iff.mp hj with ⟨t, ht⟩
      exact hs (List.append_eq_nil.mp ht).1
  | cons c rest ih =>
    intro i0
    simp only [findAux]
    by_cases hp : List.isPrefixOf sub (c :: rest) = true
    · rw [if_pos hp]
      simp only [Option.isSome_some, true_iff]
      exact ⟨0, hp⟩
    · rw [if_neg hp]
      rw [ih]
      constructor
      · intro ⟨j, hj⟩
        exact ⟨j + 1, by simpa using hj⟩
      · intro ⟨j, hj⟩
        cases j with
        | zero => exact absurd (by simpa using hj) hp
        | succ j => exact ⟨j, by simpa using hj⟩

end PyStr

namespace PyStr

theorem splitOnChar_not_mem {sep : Char} :
    ∀ {s : Str}, sep ∉ s → splitOnChar sep s = [s] := by
  intro s
  induction s with
  | nil => intro _; rfl
  | cons c r ih =>
    intro h
    have hc : c ≠ sep := fun he => h (he ▸ List.mem_cons_self _ _)
    have hr : sep ∉ r := fun hm => h (List.mem_cons_of_mem _ hm)
    rw [splitOnChar, if_neg (fun he => hc he), ih hr]

theorem splitOnChar_append_sep {sep : Char} :
    ∀ {p : Str} (r : Str), sep ∉ p →
      splitOnChar sep (p ++ sep :: r) = p :: splitOnChar sep r := by
  intro p
  induction p with
  | nil =>
    intro r _
    rw [List.nil_append, splitOnChar, if_pos rfl]
  | cons c t ih =>
    intro r h
    have hc : c ≠ sep := fun he => h (he ▸ List.mem_cons_self _ _)
    have ht : sep ∉ t := fun hm => h (List.mem_cons_of_mem _ hm)
    rw [List.cons_append, splitOnChar, if_neg (fun he => hc he), ih r ht]

/-- Python `"\n".join(lines)`. -/
def joinNL : List Str → Str
  | [] => []
  | [l] => l
  | l :: rest => l ++ '\n' :: joinNL rest

theorem splitOnChar_joinNL :
    ∀ {L : List Str}, L ≠ [] → (∀ p ∈ L, '\n' ∉ p) →
      splitOnChar '\n' (joinNL L) = L := by
  intro L
  induction L with
  | nil => intro h; exact absurd rfl h
  | cons p rest ih =>
    intro _ hfree
    cases rest with
    | nil =>
      show splitOnChar '\n' p = [p]
      exact splitOnChar_not_mem (hfree p (List.mem_cons_self _ _))
    | cons q rest' =>
      show splitOnChar '\n' (p ++ '\n' :: joinNL (q :: rest')) = _
      rw [splitOnChar_append_sep _ (hfree p (List.mem_cons_self _ _)),
        ih (by simp) (fun x hx => hfree x (List.mem_cons_of_mem _ hx))]

theorem endsWith_colon_iff {k : Str} (hne : k ≠ []) :
    endsWith k (lit ":") = true ↔ ∃ t, t ++ [':'] = k := by
  unfold endsWith
  constructor
  · intro h
    unfold List.isSuffixOf at h
    rcases isPrefixOf_eq_true_iff.mp h with ⟨t, ht⟩
    refine ⟨t.reverse, ?_⟩
    have := congrArg List.reverse ht
    rw [List.reverse_append] at this
    simpa [lit] using this
  · rintro ⟨t, rfl⟩
    unfold List.isSuffixOf
    rw [isPrefixOf_eq_true_iff]
    exact ⟨t.reverse, by simp [lit]⟩

theorem rstripColon_append_colon {k : Str} (hne : k ≠ [])
    (h : endsWith k (lit ":") = false) : rstripColon (k ++ [':']) = k := by
  cases hk : k.reverse with
  | nil => exact absurd (by simpa using congrArg List.reverse hk) hne
  | cons c t =>
    have hc : c ≠ ':' := by
      intro he
      rw [← Bool.not_eq_true] at h
      refine h ((endsWith_colon_iff hne).mpr ⟨t.reverse, ?_⟩)
      have := congrArg List.reverse hk
      rw [List.reverse_reverse] at this
      rw [this, he]
      simp
    unfold rstripColon
    rw [List.reverse_append, hk]
    show (List.dropWhile (fun x => decide (x = ':'))
      ((':' : Char) :: c :: t)).reverse = k
    rw [List.dropWhile_cons, if_pos (by simp), List.dropWhile_cons,
      if_neg (by simpa using hc), ← hk, List.reverse_reverse]

/-- A string occurs in any string of which its container is an infix. -/
theorem containsSub_mono {s x sub : Str}
    (hinf : ∃ a b, a ++ x ++ b = s) (hx : containsSub x sub = true) :
    containsSub s sub = true := by
  unfold containsSub at *
  obtain ⟨j, hj⟩ := findAux_isSome_iff.mp hx
  obtain ⟨a, b, rfl⟩ := hinf
  refine findAux_isSome_iff.mpr ⟨a.length + j, ?_⟩
  rcases isPrefixOf_eq_true_iff.mp hj with ⟨t, ht⟩
  rw [isPrefixOf_eq_true_iff]
  refine ⟨t ++ b.drop (j - x.length), ?_⟩
  have h1 : a ++ x ++ b = a ++ (x ++ b) := by rw [List.append_assoc]
  rw [h1, List.drop_append_eq_append_drop,
    List.drop_of_length_le (by omega : a.length ≤ a.length + j)]
  have h2 : a.length + j - a.length = j := by omega
  rw [h2, List.nil_append, List.drop_append_eq_append_drop, ← ht,
    List.append_assoc]

end PyStr

/-!
## Frontmatter parsing and serialization

Embedding of `parse_frontmatter` / `serialize_frontmatter` from
`.agents/scripts/cross-document-linking.py`.  Metadata values are scalar
strings, lists of strings, or (for `related_docs`) a one-level nested
mapping whose values are strings or string lists.
-/

inductive NVal where
  | s (v : Str)
  | l (v : List Str)
deriving DecidableEq, Repr

inductive FMVal where
  | s (v : Str)
  | l (v : List Str)
  | d (v : List (Str × NVal))
deriving DecidableEq, Repr

abbrev Meta := List (Str × FMVal)

namespace CrossDoc

open PyStr

/-- The loop state: `fm_dict`, `current_key` (Python `None` or a string)
and `current_list`. -/
structure ParseState where
  fm : Meta
  ck : Option Str
  cl : List Str
deriving Repr

/-- One iteration of the frontmatter parsing loop, in the source's branch
order: list items first, then `key:`-style lines (saving a pending block
list, splitting `key: value`, handling inline lists, scalars, and empty
values), everything else skipped. -/
def lineStep (st : ParseState) (line : Str) : ParseState :=
  if startsWith (strip line) (lit "- ") then
    (match st.ck with
    | some k => if k ≠ [] then { st with cl := st.cl ++ [(strip line).drop 2] } else st
    | none => st : ParseState)
  else if line.contains ':' && !startsWith line (lit " ") then
    let st1 : ParseState :=
      match st.ck with
      | some k =>
        if k ≠ [] ∧ st.cl ≠ [] then
          { fm := aset k (FMVal.l st.cl) st.fm, ck := st.ck, cl := [] }
        else st
      | none => st
    let kv :=
      if containsSub line (lit ": ") then (split1 (lit ": ") line).getD ([], [])
      else (rstripColon line, [])
    let ck := strip kv.1
    let v := strip kv.2
    if startsWith v (lit "[") && endsWith v (lit "]") then
      let items := splitOnChar ',' ((v.drop 1).dropLast)
      { fm := aset ck (FMVal.l ((items.map strip).filter (· ≠ []))) st1.fm,
        ck := none, cl := st1.cl }
    else if v ≠ [] then
      { fm := aset ck (FMVal.s v) st1.fm, ck := none, cl := st1.cl }
    else
      { fm := st1.fm, ck := some ck, cl := st1.cl }
  else st

/-- The final `if current_key and current_list` flush after the loop. -/
def flushFM (st : ParseState) : Meta :=
  match st.ck with
  | some k => if k ≠ [] ∧ st.cl ≠ [] then aset k (FMVal.l st.cl) st.fm else st.fm
  | none => st.fm

/-- The frontmatter parsing loop over the split lines. -/
def parseFMLines (lines : List Str) : Meta :=
  flushFM (lines.foldl lineStep ⟨[], none, []⟩)

/-- Embedding of `parse_frontmatter(content)`, returning
`(frontmatter_dict, frontmatter_text, body)`. -/
def parse_frontmatter (content : Str) : Meta × Str × Str :=
  if ¬ startsWith content (lit "---") then ([], [], content)
  else
    match find content (lit "\n---") 3 with
    | none => ([], [], content)
    | some e =>
      let fm_text := (content.take e).drop 4
      let body := lstrip (content.drop (e + 4))
      (parseFMLines (splitOnChar '\n' fm_text), fm_text, body)

/-- Lines of one nested (`related_docs`-style) sub-entry. -/
def serializeSub : Str × NVal → List Str
  | (sk, NVal.s v) => [lit "  " ++ sk ++ lit ": " ++ v]
  | (sk, NVal.l v) =>
    if v = [] then []
    else (lit "  " ++ sk ++ lit ":") :: v.map (fun item => lit "    - " ++ item)

/-- Lines of one top-level frontmatter entry. -/
def serializeEntry : Str × FMVal → List Str
  | (k, FMVal.s v) => [k ++ lit ": " ++ v]
  | (k, FMVal.l v) =>
    if v = [] then []
    else (k ++ lit ":") :: v.map (fun item => lit "  - " ++ item)
  | (k, FMVal.d d) => (k ++ lit ":") :: (d.map serializeSub).flatten

/-- Embedding of `serialize_frontmatter(fm_dict)`. -/
def serialize_frontmatter (m : Meta) : Str :=
  joinNL ((m.map serializeEntry).flatten)

end CrossDoc

/-!
## Claim C9: frontmatter parsing fails soft
-/

namespace CrossDoc

open PyStr

/-- C9: frontmatter parsing is a total function returning a
(metadata, body) pair; when the text does not begin with the `---`
delimiter, or no closing `\n---` delimiter exists, it returns empty
metadata together with the original text unchanged. -/
theorem c9_parse_fail_soft (content : Str) :
    (startsWith content (lit "---") = false →
      parse_frontmatter content = ([], [], content)) ∧
    (find content (lit "\n---") 3 = none →
      parse_frontmatter content = ([], [], content)) := by
  constructor
  · intro h
    unfold parse_frontmatter
    rw [if_pos (by simp [h])]
  · intro h
    unfold parse_frontmatter
    by_cases hs : startsWith content (lit "---") = true
    · rw [if_neg (by simp [hs]), h]
    · rw [if_pos (by simpa using hs)]

/-- C9, witness: both fail-soft branches at concrete inputs. -/
theorem c9_witness :
    startsWith (lit "hello") (lit "---") = false ∧
    parse_frontmatter (lit "hello") = ([], [], lit "hello") ∧
    find (lit "---\nabc") (lit "\n---") 3 = none ∧
    parse_frontmatter (lit "---\nabc") = ([], [], lit "---\nabc") := by
  refine ⟨by decide, ?_, by decide, ?_⟩
  · exact (c9_parse_fail_soft (lit "hello")).1 (by decide)
  · exact (c9_parse_fail_soft (lit "---\nabc")).2 (by decide)

end CrossDoc

namespace CrossDoc

open PyStr

/-- Well-formedness of keys as the parser itself produces them: stripped,
not a list-item marker, no `": "` inside, no newline. -/
def GoodKey (k : Str) : Prop :=
  strip k = k ∧ startsWith k (lit "- ") = false ∧
    containsSub k (lit ": ") = false ∧ '\n' ∉ k

/-- Well-formedness of scalar values as the parser produces them. -/
def GoodScalar (v : Str) : Prop :=
  strip v = v ∧ v ≠ [] ∧
    ¬(startsWith v (lit "[") = true ∧ endsWith v (lit "]") = true) ∧ '\n' ∉ v

/-- Well-formedness of list items as the parser produces them. -/
def GoodItem (i : Str) : Prop := rstrip i = i ∧ i ≠ [] ∧ '\n' ∉ i

/-- The flattened list items of a nested mapping (string subvalues
contribute nothing: their lines are skipped on re-parse). -/
def dictItems (d : List (Str × NVal)) : List Str :=
  (d.map (fun p => match p.2 with | NVal.l v => v | NVal.s _ => [])).flatten

/-- Well-formedness of nested sub-entries; the linking script only ever
stores list values under `related_docs`. -/
def GoodSub : Str × NVal → Prop
  | (sk, NVal.l v) =>
    strip sk = sk ∧ sk ≠ [] ∧ startsWith sk (lit "- ") = false ∧
      '\n' ∉ sk ∧ ∀ i ∈ v, GoodItem i
  | (_, NVal.s _) => False

/-- Well-formedness of one frontmatter entry for the round-trip. -/
def GoodEntry : Str × FMVal → Prop
  | (k, FMVal.s v) => GoodKey k ∧ GoodScalar v
  | (k, FMVal.l v) =>
    GoodKey k ∧ k ≠ [] ∧ endsWith k (lit ":") = false ∧ v ≠ [] ∧
      ∀ i ∈ v, GoodItem i
  | (k, FMVal.d d) =>
    GoodKey k ∧ k ≠ [] ∧ endsWith k (lit ":") = false ∧
      (∀ p ∈ d, GoodSub p) ∧ dictItems d ≠ []

/-- What an entry's lines parse back to: dictionaries flatten to the list
of their sub-items, everything else survives unchanged. -/
def reparsedVal : FMVal → FMVal
  | FMVal.s v => FMVal.s v
  | FMVal.l v => FMVal.l v
  | FMVal.d d => FMVal.l (dictItems d)

/-- The loop-state invariant: a nonempty pending list always has a truthy
current key. -/
def PendingOK (st : ParseState) : Prop :=
  st.cl ≠ [] → ∃ k, st.ck = some k ∧ k ≠ []

theorem dropWhile_append_all {p : Char → Bool} :
    ∀ {w : Str}, (∀ c ∈ w, p c = true) →
      ∀ r, List.dropWhile p (w ++ r) = List.dropWhile p r := by
  intro w
  induction w with
  | nil => intro _ r; rfl
  | cons c t ih =>
    intro h r
    rw [List.cons_append, List.dropWhile_cons,
      if_pos (h c (List.mem_cons_self _ _)),
      ih (fun c' hc' => h c' (List.mem_cons_of_mem _ hc')) r]

/-- A key line `k ++ ':' ++ r` never looks like a list item. -/
theorem not_item_key_line {k : Str} (hk : startsWith k (lit "- ") = false)
    (r : Str) : startsWith (k ++ ':' :: r) (lit "- ") = false := by
  cases k with
  | nil => simp [startsWith, lit, List.isPrefixOf]
  | cons c1 t =>
    cases t with
    | nil => simp [startsWith, lit, List.isPrefixOf]
    | cons c2 t2 =>
      unfold startsWith at hk ⊢
      simp only [lit] at hk ⊢
      simp only [List.cons_append, List.isPrefixOf, Bool.and_true] at hk ⊢
      exact hk

/-- A line starting with a non-space character does not start with `" "`. -/
theorem not_starts_space {c : Char} {t : Str} (hc : isSpaceChar c = false) :
    startsWith (c :: t) (lit " ") = false := by
  have hcs : c ≠ ' ' := by
    intro he
    rw [he] at hc
    simp [isSpaceChar] at hc
  unfold startsWith
  rw [Bool.eq_false_iff]
  intro h
  simp only [lit, List.isPrefixOf, Bool.and_eq_true, beq_iff_eq] at h
  exact hcs h.1.symm

end CrossDoc

namespace CrossDoc

open PyStr

theorem lit_colonspace : lit ": " = [':', ' '] := rfl

theorem lstrip_of_strip_fixed_append {k : Str} (hk : strip k = k) (r : Str)
    (hr : lstrip r = r) : lstrip (k ++ r) = k ++ r := by
  cases k with
  | nil => simpa using hr
  | cons c t =>
    have hc : isSpaceChar c = false :=
      head_not_space (strip_fixed_parts hk).1
    rw [List.cons_append]
    exact lstrip_cons_not_space hc

theorem strip_scalar_line {k v : Str} (hk : strip k = k) (hv : strip v = v)
    (hvne : v ≠ []) : strip (k ++ lit ": " ++ v) = k ++ lit ": " ++ v := by
  have hveq : rstrip v = v := (strip_fixed_parts hv).2
  have hl : lstrip (k ++ lit ": " ++ v) = k ++ lit ": " ++ v := by
    rw [List.append_assoc]
    refine lstrip_of_strip_fixed_append hk _ ?_
    show lstrip (':' :: (' ' :: v)) = ':' :: (' ' :: v)
    exact lstrip_cons_not_space (by decide)
  have hfix2 : rstrip (lit ": " ++ v) = lit ": " ++ v :=
    rstrip_append_fixed hvne hveq (lit ": ")
  have hne2 : lit ": " ++ v ≠ [] := by simp [lit_colonspace]
  have hr : rstrip (k ++ lit ": " ++ v) = k ++ lit ": " ++ v := by
    rw [List.append_assoc]
    exact rstrip_append_fixed hne2 hfix2 k
  unfold strip
  rw [hl, hr]

theorem strip_colon_line {k : Str} (hk : strip k = k) :
    strip (k ++ [':']) = k ++ [':'] := by
  have hl : lstrip (k ++ [':']) = k ++ [':'] := by
    refine lstrip_of_strip_fixed_append hk _ ?_
    exact lstrip_cons_not_space (by decide)
  have hr : rstrip (k ++ [':']) = k ++ [':'] :=
    rstrip_append_fixed (by simp) (by decide) k
  unfold strip
  rw [hl, hr]

theorem strip_spaces_line {w : Str} (hw : ∀ c ∈ w, isSpaceChar c = true)
    {r : Str} (hr : strip r = r) (_hrne : r ≠ []) :
    strip (w ++ r) = r := by
  have hl : lstrip (w ++ r) = r := by
    unfold lstrip
    rw [dropWhile_append_all hw r]
    exact (strip_fixed_parts hr).1
  unfold strip
  rw [hl]
  exact hr ▸ (strip_fixed_parts hr).2

/-- A list-item line `w ++ "- " ++ i` (with `w` whitespace) strips to
`"- " ++ i`. -/
theorem strip_item_line {w i : Str} (hw : ∀ c ∈ w, isSpaceChar c = true)
    (hi : rstrip i = i) (hine : i ≠ []) :
    strip (w ++ (lit "- " ++ i)) = lit "- " ++ i := by
  refine strip_spaces_line hw ?_ (by simp [show lit "- " = ['-', ' '] from rfl])
  have hl : lstrip (lit "- " ++ i) = lit "- " ++ i := by
    show lstrip ('-' :: (' ' :: i)) = '-' :: (' ' :: i)
    exact lstrip_cons_not_space (by decide)
  have hrs : rstrip (lit "- " ++ i) = lit "- " ++ i :=
    rstrip_append_fixed hine hi (lit "- ")
  unfold strip
  rw [hl, hrs]

theorem contains_colon (k r : Str) : (k ++ ':' :: r).contains ':' = true := by
  induction k with
  | nil => simp [List.contains_cons]
  | cons c t ih =>
    rw [List.cons_append, List.contains_cons]
    rw [ih]
    simp

/-- No `": "` occurs strictly inside the key part of a key line. -/
theorem no_early_colonspace {k : Str} (hk : containsSub k (lit ": ") = false)
    {v : Str} :
    ∀ j, j < k.length →
      List.isPrefixOf (lit ": ") ((k ++ ':' :: v).drop j) = false := by
  intro j hj
  have hdrop : (k ++ ':' :: v).drop j = k.drop j ++ ':' :: v := by
    rw [List.drop_append_eq_append_drop]
    have : j - k.length = 0 := by omega
    rw [this, List.drop_zero]
  rw [hdrop]
  cases hdj : k.drop j with
  | nil =>
    exfalso
    have := congrArg List.length hdj
    simp only [List.length_drop, List.length_nil] at this
    omega
  | cons c t =>
    cases t with
    | nil =>
      show List.isPrefixOf [':', ' '] (c :: ':' :: v) = false
      rw [Bool.eq_false_iff]
      intro h
      simp only [List.isPrefixOf, Bool.and_eq_true, beq_iff_eq] at h
      exact (by decide : (' ' : Char) ≠ ':') h.2.1
    | cons c2 t2 =>
      rw [Bool.eq_false_iff]
      intro h
      have hpre : List.isPrefixOf (lit ": ") (k.drop j) = true := by
        rw [hdj]
        simp only [List.cons_append] at h
        simp only [lit_colonspace, List.isPrefixOf, Bool.and_eq_true,
          beq_iff_eq] at h ⊢
        exact ⟨h.1, h.2.1, by simp [List.isPrefixOf]⟩
      have : containsSub k (lit ": ") = true :=
        findAux_isSome_iff.mpr ⟨j, hpre⟩
      rw [hk] at this
      cases this

/-- Splitting a well-formed scalar line recovers the key and value. -/
theorem split1_scalar_line {k v : Str} (hk : containsSub k (lit ": ") = false) :
    split1 (lit ": ") (k ++ lit ": " ++ v) = some (k, v) := by
  have heq : k ++ lit ": " ++ v = k ++ ':' :: (' ' :: v) := by
    rw [List.append_assoc]
    rfl
  have hat : List.isPrefixOf (lit ": ") ((k ++ ':' :: (' ' :: v)).drop k.length) = true := by
    rw [List.drop_append_eq_append_drop, List.drop_length, Nat.sub_self,
      List.drop_zero, List.nil_append]
    rw [isPrefixOf_eq_true_iff]
    exact ⟨v, rfl⟩
  have hfind : findAux (lit ": ") (k ++ ':' :: (' ' :: v)) 0 = some k.length := by
    have := @findAux_spec (lit ": ") (k ++ ':' :: (' ' :: v)) k.length
      (fun j hj => no_early_colonspace hk j hj) hat 0
    simpa using this
  unfold split1
  rw [heq, hfind]
  simp only [Option.map_some']
  congr 1
  have htake : (k ++ ':' :: (' ' :: v)).take k.length = k := by
    rw [List.take_append_eq_append_take, List.take_length, Nat.sub_self,
      List.take_zero, List.append_nil]
  have hdrop : (k ++ ':' :: (' ' :: v)).drop (k.length + (lit ": ").length) = v := by
    show (k ++ ':' :: (' ' :: v)).drop (k.length + 2) = v
    rw [List.drop_append_eq_append_drop]
    have h1 : k.drop (k.length + 2) = [] := by
      apply List.drop_eq_nil_of_le
      omega
    have h2 : k.length + 2 - k.length = 2 := by omega
    rw [h1, h2, List.nil_append]
    rfl
  rw [htake, hdrop]

/-- A `key:` line with no trailing-colon key contains no `": "`. -/
theorem no_colonspace_colon_line {k : Str}
    (hk : containsSub k (lit ": ") = false) :
    containsSub (k ++ [':']) (lit ": ") = false := by
  rw [Bool.eq_false_iff]
  intro h
  obtain ⟨j, hj⟩ := findAux_isSome_iff.mp h
  rcases Nat.lt_or_ge j k.length with hlt | hge
  · have := no_early_colonspace hk (v := []) j hlt
    rw [this] at hj
    cases hj
  · rcases isPrefixOf_eq_true_iff.mp hj with ⟨t, ht⟩
    have hlen := congrArg List.length ht
    simp only [List.length_append, List.length_drop, lit_colonspace,
      List.length_cons, List.length_singleton, List.length_nil] at hlen
    omega

end CrossDoc

namespace CrossDoc

open PyStr

/-- Saving a pending block list always leaves the flushed dictionary and an
empty pending list (under the loop-state invariant). -/
theorem save_pending_eq {st : ParseState} (hp : PendingOK st) :
    (match st.ck with
      | some k =>
        if k ≠ [] ∧ st.cl ≠ [] then
          { fm := aset k (FMVal.l st.cl) st.fm, ck := st.ck, cl := [] }
        else st
      | none => st : ParseState) = ⟨flushFM st, st.ck, []⟩ := by
  cases hck : st.ck with
  | none =>
    have hcl : st.cl = [] := by
      by_contra hne
      obtain ⟨k', hk', _⟩ := hp hne
      rw [hck] at hk'
      cases hk'
    unfold flushFM
    rw [hck]
    cases st
    simp only at hck hcl
    rw [hck, hcl]
  | some k' =>
    dsimp only
    by_cases hcond : k' ≠ [] ∧ st.cl ≠ []
    · rw [if_pos hcond]
      have hf : flushFM st = aset k' (FMVal.l st.cl) st.fm := by
        unfold flushFM
        rw [hck]
        dsimp only
        rw [if_pos hcond]
      rw [hf]
    · rw [if_neg hcond]
      have hcl : st.cl = [] := by
        by_contra hne
        obtain ⟨k'', hk'', hk''ne⟩ := hp hne
        rw [hck] at hk''
        injection hk'' with he
        exact hcond ⟨he ▸ hk''ne, hne⟩
      have hf : flushFM st = st.fm := by
        unfold flushFM
        rw [hck]
        dsimp only
        rw [if_neg hcond]
      rw [hf, ← hck, ← hcl]

theorem not_space_key_line {k : Str} (hk : strip k = k) (r : Str) :
    startsWith (k ++ ':' :: r) (lit " ") = false := by
  cases k with
  | nil => exact not_starts_space (by decide)
  | cons c t =>
    rw [List.cons_append]
    exact not_starts_space (head_not_space (strip_fixed_parts hk).1)

theorem contains_colonspace_scalar {k v : Str} :
    containsSub (k ++ ':' :: (' ' :: v)) (lit ": ") = true := by
  refine findAux_isSome_iff.mpr ⟨k.length, ?_⟩
  rw [List.drop_append_eq_append_drop, List.drop_length, Nat.sub_self,
    List.drop_zero, List.nil_append, isPrefixOf_eq_true_iff]
  exact ⟨v, rfl⟩

/-- Effect of a well-formed `key: value` scalar line. -/
theorem lineStep_scalar {st : ParseState} {k v : Str}
    (hkG : GoodKey k) (hvG : GoodScalar v) (hp : PendingOK st) :
    lineStep st (k ++ lit ": " ++ v) =
      ⟨aset k (FMVal.s v) (flushFM st), none, []⟩ := by
  obtain ⟨hk1, hk2, hk3, hk4⟩ := hkG
  obtain ⟨hv1, hv2, hv3, hv4⟩ := hvG
  have hassoc : k ++ lit ": " ++ v = k ++ ':' :: (' ' :: v) := by
    rw [List.append_assoc]
    rfl
  have hstrip := strip_scalar_line hk1 hv1 hv2
  rw [hassoc] at hstrip ⊢
  unfold lineStep
  rw [hstrip]
  rw [if_neg (by rw [not_item_key_line hk2 (' ' :: v)]; simp)]
  rw [if_pos (by
    rw [Bool.and_eq_true, contains_colon k (' ' :: v),
      not_space_key_line hk1 (' ' :: v)]
    exact ⟨rfl, rfl⟩)]
  simp only
  rw [save_pending_eq hp]
  rw [if_pos contains_colonspace_scalar]
  have hsplit := split1_scalar_line (v := v) hk3
  rw [hassoc] at hsplit
  rw [hsplit]
  simp only [Option.getD_some]
  rw [hk1, hv1]
  rw [if_neg (by rw [Bool.and_eq_true]; exact fun h => hv3 h)]
  rw [if_pos hv2]

end CrossDoc

namespace CrossDoc

open PyStr

/-- Effect of a well-formed `key:` line opening a block list. -/
theorem lineStep_listkey {st : ParseState} {k : Str}
    (hkG : GoodKey k) (hkne : k ≠ []) (hkc : endsWith k (lit ":") = false)
    (hp : PendingOK st) :
    lineStep st (k ++ [':']) = ⟨flushFM st, some k, []⟩ := by
  obtain ⟨hk1, hk2, hk3, hk4⟩ := hkG
  unfold lineStep
  rw [strip_colon_line hk1]
  rw [if_neg (by rw [not_item_key_line hk2 []]; simp)]
  rw [if_pos (by
    rw [Bool.and_eq_true, contains_colon k [],
      not_space_key_line hk1 []]
    exact ⟨rfl, rfl⟩)]
  simp only
  rw [save_pending_eq hp]
  have hc1 : containsSub (k ++ [':']) (lit ": ") = false :=
    no_colonspace_colon_line hk3
  simp only [hc1, Bool.false_eq_true, if_false,
    rstripColon_append_colon hkne hkc, hk1]
  have h2 : strip ([] : Str) = [] := rfl
  simp only [h2]
  rw [if_neg (by simp [startsWith, lit, List.isPrefixOf])]
  rw [if_neg (by simp)]

/-- Effect of a well-formed indented list-item line while a block list for
key `k` is open. -/
theorem lineStep_item {st : ParseState} {w i k : Str}
    (hw : ∀ c ∈ w, isSpaceChar c = true)
    (hi : GoodItem i) (hck : st.ck = some k) (hkne : k ≠ []) :
    lineStep st (w ++ (lit "- " ++ i)) = { st with cl := st.cl ++ [i] } := by
  obtain ⟨hi1, hi2, hi3⟩ := hi
  unfold lineStep
  rw [strip_item_line hw hi1 hi2]
  rw [if_pos (by
    unfold startsWith
    rw [isPrefixOf_eq_true_iff]
    exact ⟨i, rfl⟩)]
  rw [hck]
  dsimp only
  rw [if_pos hkne]
  have : (lit "- " ++ i).drop 2 = i := rfl
  rw [this]

/-- A nested sub-key line `"  " ++ sk ++ ":"` is skipped entirely. -/
theorem lineStep_subkey {st : ParseState} {sk : Str}
    (hsk1 : strip sk = sk) (_hsk2 : sk ≠ [])
    (hsk3 : startsWith sk (lit "- ") = false) :
    lineStep st (lit "  " ++ (sk ++ [':'])) = st := by
  unfold lineStep
  have hstrip : strip (lit "  " ++ (sk ++ [':'])) = sk ++ [':'] := by
    refine strip_spaces_line (by decide) (strip_colon_line hsk1) (by simp)
  rw [hstrip]
  rw [if_neg (by rw [not_item_key_line hsk3 []]; simp)]
  rw [if_neg (by
    rw [Bool.and_eq_true]
    intro h
    have : startsWith (lit "  " ++ (sk ++ [':'])) (lit " ") = true := by
      unfold startsWith
      rw [isPrefixOf_eq_true_iff]
      exact ⟨' ' :: (sk ++ [':']), rfl⟩
    rw [this] at h
    simp at h)]

end CrossDoc

namespace CrossDoc

open PyStr

theorem fold_items {k w : Str} (hkne : k ≠ [])
    (hw : ∀ c ∈ w, isSpaceChar c = true) :
    ∀ (items : List Str) (st : ParseState), st.ck = some k →
      (∀ i ∈ items, GoodItem i) →
      (items.map (fun i => w ++ (lit "- " ++ i))).foldl lineStep st =
        { st with cl := st.cl ++ items } := by
  intro items
  induction items with
  | nil =>
    intro st _ _
    simp
  | cons i rest ih =>
    intro st hck hgood
    rw [List.map_cons, List.foldl_cons,
      lineStep_item hw (hgood i (List.mem_cons_self _ _)) hck hkne]
    rw [ih _ (by simp [hck]) (fun j hj => hgood j (List.mem_cons_of_mem _ hj))]
    simp

theorem entryStep_scalar {st : ParseState} {k v : Str}
    (hkG : GoodKey k) (hvG : GoodScalar v) (hp : PendingOK st) :
    (serializeEntry (k, FMVal.s v)).foldl lineStep st =
      ⟨aset k (FMVal.s v) (flushFM st), none, []⟩ := by
  show [k ++ lit ": " ++ v].foldl lineStep st = _
  rw [List.foldl_cons, List.foldl_nil, lineStep_scalar hkG hvG hp]

theorem entryStep_list {st : ParseState} {k : Str} {items : List Str}
    (hkG : GoodKey k) (hkne : k ≠ []) (hkc : endsWith k (lit ":") = false)
    (hne : items ≠ []) (hitems : ∀ i ∈ items, GoodItem i)
    (hp : PendingOK st) :
    (serializeEntry (k, FMVal.l items)).foldl lineStep st =
      ⟨flushFM st, some k, items⟩ := by
  show (if items = [] then [] else
    (k ++ [':']) :: items.map (fun item => lit "  - " ++ item)).foldl
      lineStep st = _
  rw [if_neg hne, List.foldl_cons, lineStep_listkey hkG hkne hkc hp]
  have hmapeq : items.map (fun item => lit "  - " ++ item) =
      items.map (fun i => lit "  " ++ (lit "- " ++ i)) := by
    apply List.map_congr_left
    intro i _
    rfl
  rw [hmapeq, fold_items hkne (by decide) items _ rfl hitems]
  simp

theorem entryStep_dict {st : ParseState} {k : Str} {d : List (Str × NVal)}
    (hkG : GoodKey k) (hkne : k ≠ []) (hkc : endsWith k (lit ":") = false)
    (hsubs : ∀ p ∈ d, GoodSub p) (hp : PendingOK st) :
    (serializeEntry (k, FMVal.d d)).foldl lineStep st =
      ⟨flushFM st, some k, dictItems d⟩ := by
  show ((k ++ [':']) :: (d.map serializeSub).flatten).foldl lineStep st = _
  rw [List.foldl_cons, lineStep_listkey hkG hkne hkc hp]
  have aux : ∀ (d' : List (Str × NVal)) (st' : ParseState), st'.ck = some k →
      (∀ p ∈ d', GoodSub p) →
      ((d'.map serializeSub).flatten).foldl lineStep st' =
        { st' with cl := st'.cl ++ dictItems d' } := by
    intro d'
    induction d' with
    | nil =>
      intro st' _ _
      simp [dictItems]
    | cons p rest ihd =>
      intro st' hck hgood
      rcases p with ⟨sk, nv⟩
      cases nv with
      | s sv => exact absurd (hgood (sk, NVal.s sv) (List.mem_cons_self _ _)) id
      | l v =>
        obtain ⟨hs1, hs2, hs3, hs4, hs5⟩ :=
          hgood (sk, NVal.l v) (List.mem_cons_self _ _)
        rw [List.map_cons, List.flatten_cons, List.foldl_append]
        have hgrest : ∀ p ∈ rest, GoodSub p :=
          fun p hpm => hgood p (List.mem_cons_of_mem _ hpm)
        have hdict : dictItems ((sk, NVal.l v) :: rest) = v ++ dictItems rest := by
          simp [dictItems]
        by_cases hv : v = []
        · subst hv
          have hser : serializeSub (sk, NVal.l []) = [] := rfl
          rw [hser, List.foldl_nil, ihd st' hck hgrest, hdict]
          simp
        · have hser : serializeSub (sk, NVal.l v) =
              ((lit "  " ++ sk) ++ lit ":") ::
                v.map (fun item => lit "    - " ++ item) := by
            show (if v = [] then [] else _) = _
            rw [if_neg hv]
          rw [hser, List.foldl_cons]
          have hassoc : (lit "  " ++ sk) ++ lit ":" = lit "  " ++ (sk ++ [':']) := by
            rw [List.append_assoc]
            rfl
          rw [hassoc, lineStep_subkey hs1 hs2 hs3]
          have hmapeq : v.map (fun item => lit "    - " ++ item) =
              v.map (fun i => lit "    " ++ (lit "- " ++ i)) := by
            apply List.map_congr_left
            intro i _
            rfl
          rw [hmapeq, fold_items hkne (by decide) v st' hck hs5]
          rw [ihd _ (by simp [hck]) hgrest, hdict]
          simp
  rw [aux d _ rfl hsubs]
  simp

end CrossDoc

namespace CrossDoc

open PyStr

theorem aset_not_mem {β : Type _} {k : Str} {v : β} :
    ∀ {m : List (Str × β)}, k ∉ m.map Prod.fst → aset k v m = m ++ [(k, v)] := by
  intro m
  induction m with
  | nil => intro _; rfl
  | cons p rest ih =>
    intro h
    rcases p with ⟨k', v'⟩
    have hne : k' ≠ k := by
      intro he
      exact h (by rw [List.map_cons, he]; exact List.mem_cons_self _ _)
    show (if k' = k then _ else _) = _
    rw [if_neg hne,
      ih (fun hm => h (by rw [List.map_cons]; exact List.mem_cons_of_mem _ hm))]
    rfl

/-- The final flush of a state holding the flushed dictionary and a fresh
pending list. -/
theorem flushFM_pending {fm : Meta} {k : Str} {cl : List Str}
    (hk : k ≠ []) (hcl : cl ≠ []) (hfresh : k ∉ fm.map Prod.fst) :
    flushFM ⟨fm, some k, cl⟩ = fm ++ [(k, FMVal.l cl)] := by
  unfold flushFM
  dsimp only
  rw [if_pos ⟨hk, hcl⟩, aset_not_mem hfresh]

theorem flushFM_none {fm : Meta} {cl : List Str} :
    flushFM ⟨fm, none, cl⟩ = fm := rfl

/-- Folding the serialized lines of well-formed entries from any state with
fresh keys appends the reparsed entries to the flushed dictionary. -/
theorem entries_fold :
    ∀ (m : Meta) (st : ParseState), PendingOK st →
      (∀ e ∈ m, GoodEntry e) → (m.map Prod.fst).Nodup →
      (∀ kk ∈ m.map Prod.fst, kk ∉ (flushFM st).map Prod.fst) →
      flushFM (((m.map serializeEntry).flatten).foldl lineStep st) =
        flushFM st ++ m.map (fun e => (e.1, reparsedVal e.2)) := by
  intro m
  induction m with
  | nil =>
    intro st _ _ _ _
    rw [List.map_nil, List.flatten_nil, List.foldl_nil, List.map_nil,
      List.append_nil]
  | cons e rest ih =>
    intro st hp hgood hnd hfresh
    rcases e with ⟨k, v⟩
    rw [List.map_cons, List.flatten_cons, List.foldl_append]
    have hge := hgood (k, v) (List.mem_cons_self _ _)
    have hgrest : ∀ e ∈ rest, GoodEntry e :=
      fun e he => hgood e (List.mem_cons_of_mem _ he)
    have hkfresh : k ∉ (flushFM st).map Prod.fst :=
      hfresh k (by rw [List.map_cons]; exact List.mem_cons_self _ _)
    have hndrest : (rest.map Prod.fst).Nodup := (List.nodup_cons.mp hnd).2
    have hknotrest : k ∉ rest.map Prod.fst := (List.nodup_cons.mp hnd).1
    cases v with
    | s sv =>
      obtain ⟨hkG, hvG⟩ := hge
      rw [entryStep_scalar hkG hvG hp]
      have hst' : flushFM ⟨aset k (FMVal.s sv) (flushFM st), none, []⟩ =
          flushFM st ++ [(k, FMVal.s sv)] := by
        rw [flushFM_none, aset_not_mem hkfresh]
      rw [ih _ (fun h => absurd rfl h) hgrest hndrest (by
        intro kk hkk
        rw [hst', List.map_append, List.mem_append]
        rintro (h | h)
        · exact hfresh kk
            (by rw [List.map_cons]; exact List.mem_cons_of_mem _ hkk) h
        · rw [List.map_cons, List.map_nil] at h
          have hkeq : kk = k := List.mem_singleton.mp h
          exact hknotrest (hkeq ▸ hkk))]
      rw [hst']
      rw [List.map_cons, List.append_assoc]
      rfl
    | l lv =>
      obtain ⟨hkG, hkne, hkc, hlne, hlitems⟩ := hge
      rw [entryStep_list hkG hkne hkc hlne hlitems hp]
      have hst' : flushFM ⟨flushFM st, some k, lv⟩ =
          flushFM st ++ [(k, FMVal.l lv)] :=
        flushFM_pending hkne hlne hkfresh
      rw [ih _ (fun _ => ⟨k, rfl, hkne⟩) hgrest hndrest (by
        intro kk hkk
        rw [hst', List.map_append, List.mem_append]
        rintro (h | h)
        · exact hfresh kk
            (by rw [List.map_cons]; exact List.mem_cons_of_mem _ hkk) h
        · rw [List.map_cons, List.map_nil] at h
          have hkeq : kk = k := List.mem_singleton.mp h
          exact hknotrest (hkeq ▸ hkk))]
      rw [hst']
      rw [List.map_cons, List.append_assoc]
      rfl
    | d dv =>
      obtain ⟨hkG, hkne, hkc, hdsubs, hdne⟩ := hge
      rw [entryStep_dict hkG hkne hkc hdsubs hp]
      have hst' : flushFM ⟨flushFM st, some k, dictItems dv⟩ =
          flushFM st ++ [(k, FMVal.l (dictItems dv))] :=
        flushFM_pending hkne hdne hkfresh
      rw [ih _ (fun _ => ⟨k, rfl, hkne⟩) hgrest hndrest (by
        intro kk hkk
        rw [hst', List.map_append, List.mem_append]
        rintro (h | h)
        · exact hfresh kk
            (by rw [List.map_cons]; exact List.mem_cons_of_mem _ hkk) h
        · rw [List.map_cons, List.map_nil] at h
          have hkeq : kk = k := List.mem_singleton.mp h
          exact hknotrest (hkeq ▸ hkk))]
      rw [hst']
      rw [List.map_cons, List.append_assoc]
      rfl

end CrossDoc

namespace CrossDoc

open PyStr

theorem entry_lines_nl_free {e : Str × FMVal} (hg : GoodEntry e) :
    ∀ l ∈ serializeEntry e, '\n' ∉ l := by
  rcases e with ⟨k, v⟩
  cases v with
  | s sv =>
    obtain ⟨⟨_, _, _, hk4⟩, ⟨_, _, _, hv4⟩⟩ := hg
    intro l hl
    rw [show serializeEntry (k, FMVal.s sv) = [k ++ lit ": " ++ sv] from rfl,
      List.mem_singleton] at hl
    subst hl
    intro hmem
    rcases List.mem_append.mp hmem with h | h
    · rcases List.mem_append.mp h with h | h
      · exact hk4 h
      · simp [lit_colonspace] at h
    · exact hv4 h
  | l lv =>
    obtain ⟨⟨_, _, _, hk4⟩, _, _, hlne, hlitems⟩ := hg
    intro l hl
    rw [show serializeEntry (k, FMVal.l lv) =
      (if lv = [] then [] else (k ++ [':']) :: lv.map
        (fun item => lit "  - " ++ item)) from rfl, if_neg hlne] at hl
    rcases List.mem_cons.mp hl with hl | hl
    · subst hl
      intro hmem
      rcases List.mem_append.mp hmem with h | h
      · exact hk4 h
      · simp at h
    · rcases List.mem_map.mp hl with ⟨i, hi, hieq⟩
      subst hieq
      intro hmem
      rcases List.mem_append.mp hmem with h | h
      · simp [show lit "  - " = [' ', ' ', '-', ' '] from rfl] at h
      · exact (hlitems i hi).2.2 h
  | d dv =>
    obtain ⟨⟨_, _, _, hk4⟩, _, _, hdsubs, _⟩ := hg
    intro l hl
    rw [show serializeEntry (k, FMVal.d dv) =
      (k ++ [':']) :: (dv.map serializeSub).flatten from rfl] at hl
    rcases List.mem_cons.mp hl with hl | hl
    · subst hl
      intro hmem
      rcases List.mem_append.mp hmem with h | h
      · exact hk4 h
      · simp at h
    · rcases List.mem_flatten.mp hl with ⟨sub, hsubmem, hlsub⟩
      rcases List.mem_map.mp hsubmem with ⟨p, hpmem, hpeq⟩
      subst hpeq
      rcases p with ⟨sk, nv⟩
      cases nv with
      | s sv => exact absurd (hdsubs (sk, NVal.s sv) hpmem) id
      | l v =>
        obtain ⟨_, _, _, hsk4, hitems⟩ := hdsubs (sk, NVal.l v) hpmem
        by_cases hv : v = []
        · subst hv
          rw [show serializeSub (sk, NVal.l []) = [] from rfl] at hlsub
          cases hlsub
        · rw [show serializeSub (sk, NVal.l v) =
            ((lit "  " ++ sk ++ lit ":") :: v.map
              (fun item => lit "    - " ++ item)) from by
              show (if v = [] then [] else _) = _
              rw [if_neg hv]] at hlsub
          rcases List.mem_cons.mp hlsub with hl2 | hl2
          · subst hl2
            intro hmem
            rcases List.mem_append.mp hmem with h | h
            · rcases List.mem_append.mp h with h | h
              · simp [show lit "  " = [' ', ' '] from rfl] at h
              · exact hsk4 h
            · simp [show lit ":" = [':'] from rfl] at h
          · rcases List.mem_map.mp hl2 with ⟨i, hi, hieq⟩
            subst hieq
            intro hmem
            rcases List.mem_append.mp hmem with h | h
            · simp [show lit "    - " = [' ', ' ', ' ', ' ', '-', ' '] from rfl] at h
            · exact (hitems i hi).2.2 h

theorem entry_lines_ne {e : Str × FMVal} (hg : GoodEntry e) :
    serializeEntry e ≠ [] := by
  rcases e with ⟨k, v⟩
  cases v with
  | s sv => simp [serializeEntry]
  | l lv =>
    obtain ⟨_, _, _, hlne, _⟩ := hg
    show (if lv = [] then [] else _) ≠ []
    rw [if_neg hlne]
    simp
  | d dv => simp [serializeEntry]

/-- Re-parsing the serialized form of well-formed metadata yields the
entries back, with nested mappings flattened to their item lists. -/
theorem reparse_serialize {m : Meta} (hg : ∀ e ∈ m, GoodEntry e)
    (hnd : (m.map Prod.fst).Nodup) :
    parseFMLines (splitOnChar '\n' (serialize_frontmatter m)) =
      m.map (fun e => (e.1, reparsedVal e.2)) := by
  cases hm : m with
  | nil => decide
  | cons e rest =>
    have hlines_ne : (m.map serializeEntry).flatten ≠ [] := by
      rw [hm, List.map_cons, List.flatten_cons]
      intro hcontra
      rcases List.append_eq_nil.mp hcontra with ⟨h1, _⟩
      exact entry_lines_ne (hg e (hm ▸ List.mem_cons_self _ _)) h1
    have hfree : ∀ l ∈ (m.map serializeEntry).flatten, '\n' ∉ l := by
      intro l hl
      rcases List.mem_flatten.mp hl with ⟨lines, hlmem, hlin⟩
      rcases List.mem_map.mp hlmem with ⟨e', he', heq⟩
      exact entry_lines_nl_free (hg e' he') l (heq ▸ hlin)
    rw [← hm]
    show parseFMLines (splitOnChar '\n'
      (joinNL ((m.map serializeEntry).flatten))) = _
    rw [splitOnChar_joinNL hlines_ne hfree]
    unfold parseFMLines
    have := entries_fold m ⟨[], none, []⟩ (fun h => absurd rfl h) hg hnd
      (by intro kk hkk; intro hmem; cases hmem)
    rw [this]
    rfl

end CrossDoc

/-!
## Claim C5: frontmatter round-trip
-/

namespace CrossDoc

open PyStr

theorem map_reparsed_id {m : Meta} (h : ∀ e ∈ m, reparsedVal e.2 = e.2) :
    m.map (fun e => (e.1, reparsedVal e.2)) = m := by
  induction m with
  | nil => rfl
  | cons e rest ih =>
    rw [List.map_cons, h e (List.mem_cons_self _ _),
      ih (fun e' he' => h e' (List.mem_cons_of_mem _ he'))]

/-- C5 (amended): for well-formed metadata whose values are scalar strings
or nonempty lists of strings — the only value shapes the parser itself
produces — serializing and re-parsing yields the same metadata mapping.
The restriction to values that reparse to themselves excludes empty list
values, whose serialization emits no lines at all, and nested mappings,
whose sub-entries reparse to one flattened item list. -/
theorem c5_round_trip {m : Meta} (hg : ∀ e ∈ m, GoodEntry e)
    (hnd : (m.map Prod.fst).Nodup) (hid : ∀ e ∈ m, reparsedVal e.2 = e.2) :
    parseFMLines (splitOnChar '\n' (serialize_frontmatter m)) = m := by
  rw [reparse_serialize hg hnd, map_reparsed_id hid]

/-- C5, counterexample to the claim as stated: the metadata mapping
obtained by parsing the frontmatter `k: []` (an inline empty list) maps
`k` to the empty list, but serializing it emits no lines, so re-parsing
yields the empty mapping instead. -/
theorem c5_counterexample :
    (parse_frontmatter (lit "---\nk: []\n---\nbody")).1 =
      [(lit "k", FMVal.l [])] ∧
    parseFMLines (splitOnChar '\n'
      (serialize_frontmatter [(lit "k", FMVal.l [])])) = [] ∧
    ([] : Meta) ≠ [(lit "k", FMVal.l [])] := by
  exact ⟨by decide, by decide, by decide⟩

/-- C5, witness: the amended round-trip theorem applied to a concrete
two-entry mapping with a scalar and a nonempty list value. -/
theorem c5_witness :
    parseFMLines (splitOnChar '\n' (serialize_frontmatter
      [(lit "title", FMVal.s (lit "Quarterly Report")),
       (lit "people", FMVal.l [lit "Alice", lit "Bob"])])) =
      [(lit "title", FMVal.s (lit "Quarterly Report")),
       (lit "people", FMVal.l [lit "Alice", lit "Bob"])] := by
  refine c5_round_trip ?_ (by decide) ?_
  · intro e he
    rcases List.mem_cons.mp he with h | h
    · subst h
      exact ⟨⟨by decide, by decide, by decide, by decide⟩,
        ⟨by decide, by decide, by decide, by decide⟩⟩
    · rcases List.mem_singleton.mp h with rfl
      refine ⟨⟨by decide, by decide, by decide, by decide⟩,
        by decide, by decide, by decide, ?_⟩
      intro i hi
      rcases List.mem_cons.mp hi with h2 | h2
      · subst h2; exact ⟨by decide, by decide, by decide⟩
      · rcases List.mem_singleton.mp h2 with rfl
        exact ⟨by decide, by decide, by decide⟩
  · intro e he
    rcases List.mem_cons.mp he with h | h
    · subst h; rfl
    · rcases List.mem_singleton.mp h with rfl; rfl

end CrossDoc

/-!
## Embedding of the navigation writer (`generate_navigation_links`,
`update_document`)
-/

namespace CrossDoc

open PyStr

/-- The `doc.related_docs` mapping: relationship categories to link lists,
in insertion order, with a key present only once a link was appended. -/
abbrev RelDocs := List (Str × List Str)

/-- Python `doc.related_docs.get(key)` with a missing key read as empty. -/
def rdGet (rd : RelDocs) (k : Str) : List Str := (alookup k rd).getD []

/-- Python `Path(s).name` for a relative path without trailing slashes:
the part after the last `/`. -/
def pyName (s : Str) : Str := ((splitOnChar '/' s).getLast?).getD s

/-- Python `Path(s).stem`: the name with its final suffix removed, a
suffix existing only when the last dot is neither first nor last. -/
def pyStem (s : Str) : Str :=
  let n := pyName s
  match n.reverse.findIdx? (fun ch => ch = '.') with
  | none => n
  | some j =>
    let i := n.length - 1 - j
    if 0 < i ∧ i < n.length - 1 then n.take i else n

/-- One `- [stem](link)` line of the navigation section. -/
def linkLine (link : Str) : Str :=
  lit "- [" ++ pyStem link ++ lit "](" ++ link ++ lit ")\n"

/-- One category block of the navigation section (absent when the
category has no links). -/
def navSection (rd : RelDocs) (k title : Str) : Str :=
  if rdGet rd k = [] then []
  else (lit "\n**" ++ title ++ lit ":**\n") ++ ((rdGet rd k).map linkLine).flatten

/-- Embedding of `generate_navigation_links(doc)`: the fixed-order
category blocks after the section marker, empty when `related_docs` is. -/
def generate_navigation_links (rd : RelDocs) : Str :=
  if rd = [] then []
  else
    lit "\n---\n" ++ lit "## Related Documents\n" ++
    navSection rd (lit "thread_parent") (lit "Thread Parent") ++
    navSection rd (lit "thread_replies") (lit "Thread Replies") ++
    navSection rd (lit "thread_siblings") (lit "Thread Siblings") ++
    navSection rd (lit "attachments") (lit "Attachments") ++
    navSection rd (lit "shared_entities") (lit "Related by Entities")

/-- The `related_docs` frontmatter value built by `update_document`:
each nonempty category maps to `sorted(set(links))`.  The two Python
statements (create an empty dict, then add the filtered categories)
are embedded as the one resulting dictionary. -/
def fmRelated (rd : RelDocs) : List (Str × NVal) :=
  (rd.filter (fun p => p.2 ≠ [])).map
    (fun p => (p.1, NVal.l (sortedBy lexLe p.2.dedup)))

/-- The fixed navigation marker `"\n---\n## Related Documents\n"`. -/
def navMarker : Str := lit "\n---\n## Related Documents\n"

/-- The body cleanup of `update_document`: when the navigation marker
occurs, keep only what precedes its first occurrence, right-stripped. -/
def stripNavBody (body : Str) : Str :=
  if containsSub body navMarker then rstrip (splitHead navMarker body)
  else body

/-- Embedding of `update_document(doc)` as the pure content
transformation it writes back (unchanged when `related_docs` is empty,
where the source returns `False` before touching the file). -/
def update_document (rd : RelDocs) (content : Str) : Str :=
  if rd = [] then content
  else
    let p := parse_frontmatter content
    let fm1 := aset (lit "related_docs") (FMVal.d (fmRelated rd)) p.1
    let body1 := stripNavBody p.2.2
    lit "---\n" ++ serialize_frontmatter fm1 ++ lit "\n---\n\n" ++ body1 ++
      generate_navigation_links rd

end CrossDoc

namespace CrossDoc

open PyStr

theorem isPrefixOf_append_left {p a b : Str}
    (h : List.isPrefixOf p (a ++ b) = true) (hl : p.length ≤ a.length) :
    List.isPrefixOf p a = true := by
  apply isPrefixOf_eq_true_iff.mpr
  have hp : p = a.take p.length := by
    calc p = (a ++ b).take p.length := by
          rcases isPrefixOf_eq_true_iff.mp h with ⟨t, ht⟩
          rw [← ht, List.take_left]
      _ = a.take p.length := List.take_append_of_le_length hl
  have hsplit : a.take p.length ++ a.drop p.length = a := List.take_append_drop _ a
  rw [← hp] at hsplit
  exact ⟨a.drop p.length, hsplit⟩

/-- First-occurrence position of a marker placed right after a prefix that
neither contains it nor ends in one of its self-overlapping fragments. -/
theorem findAux_boundary {marker b rest : Str}
    (hnocc : containsSub b marker = false)
    (hbord : ∀ t, 0 < t → t < marker.length →
      marker.drop t = marker.take (marker.length - t) →
      endsWith b (marker.take t) = false) :
    findAux marker (b ++ (marker ++ rest)) 0 = some b.length := by
  have hres := @findAux_spec marker (b ++ (marker ++ rest)) b.length
    ?_ ?_ 0
  · simpa using hres
  · intro j hj
    cases hx : List.isPrefixOf marker ((b ++ (marker ++ rest)).drop j) with
    | false => rfl
    | true =>
      exfalso
      rw [List.drop_append_of_le_length (le_of_lt hj)] at hx
      have hdlen : (b.drop j).length = b.length - j := List.length_drop j b
      by_cases hfit : marker.length ≤ b.length - j
      · have hpre : List.isPrefixOf marker (b.drop j) = true :=
          isPrefixOf_append_left hx (by omega)
        have hsome : (findAux marker b 0).isSome :=
          findAux_isSome_iff.mpr ⟨j, hpre⟩
        rw [show (findAux marker b 0).isSome = containsSub b marker from rfl,
          hnocc] at hsome
        cases hsome
      · have hfit' : b.length - j < marker.length := by omega
        have ht0 : 0 < b.length - j := by omega
        rcases isPrefixOf_eq_true_iff.mp hx with ⟨u, hu⟩
        have h1 : marker.take (b.length - j) = b.drop j := by
          calc marker.take (b.length - j)
              = (marker ++ u).take (b.length - j) :=
                (List.take_append_of_le_length (by omega)).symm
            _ = (b.drop j ++ (marker ++ rest)).take (b.length - j) := by rw [hu]
            _ = b.drop j := List.take_left' hdlen
        have h2 : marker.drop (b.length - j) =
            marker.take (marker.length - (b.length - j)) := by
          have hdrop : marker.drop (b.length - j) ++ u = marker ++ rest := by
            calc marker.drop (b.length - j) ++ u
                = (marker ++ u).drop (b.length - j) :=
                  (List.drop_append_of_le_length (by omega)).symm
              _ = (b.drop j ++ (marker ++ rest)).drop (b.length - j) := by rw [hu]
              _ = marker ++ rest := List.drop_left' hdlen
          calc marker.drop (b.length - j)
              = (marker.drop (b.length - j) ++ u).take
                  (marker.length - (b.length - j)) :=
                (List.take_left' (by rw [List.length_drop])).symm
            _ = (marker ++ rest).take (marker.length - (b.length - j)) := by
                rw [hdrop]
            _ = marker.take (marker.length - (b.length - j)) :=
                List.take_append_of_le_length (by omega)
        have hsuf : endsWith b (marker.take (b.length - j)) = true := by
          rw [h1]
          exact List.isSuffixOf_iff_suffix.mpr (List.drop_suffix _ _)
        rw [hbord _ ht0 hfit' h2] at hsuf
        cases hsuf
  · rw [List.drop_left]
    exact isPrefixOf_eq_true_iff.mpr ⟨rest, rfl⟩

theorem lstrip_append_of_fixed {a b : Str} (ha : lstrip a = a) (hne : a ≠ []) :
    lstrip (a ++ b) = a ++ b := by
  cases a with
  | nil => exact absurd rfl hne
  | cons c t =>
    show lstrip (c :: (t ++ b)) = c :: (t ++ b)
    exact lstrip_cons_not_space (head_not_space ha)

theorem aset_append_last {β : Type _} {k : Str} {v w : β} :
    ∀ {m : List (Str × β)}, k ∉ m.map Prod.fst →
      aset k v (m ++ [(k, w)]) = m ++ [(k, v)] := by
  intro m
  induction m with
  | nil =>
    intro _
    show (if k = k then _ else _) = _
    rw [if_pos rfl]
    rfl
  | cons p rest ih =>
    intro h
    rcases p with ⟨k', v'⟩
    have hne : k' ≠ k := by
      intro he
      exact h (by rw [List.map_cons, he]; exact List.mem_cons_self _ _)
    show (if k' = k then _ else _) = _
    rw [if_neg hne, show rest.append [(k, w)] = rest ++ [(k, w)] from rfl,
      ih (fun hm => h (by rw [List.map_cons]; exact List.mem_cons_of_mem _ hm))]
    rfl

end CrossDoc

namespace CrossDoc

open PyStr

theorem nocc_nl_fms {fms : Str}
    (hs : startsWith fms (lit "---") = false)
    (hc : containsSub fms (lit "\n---") = false) :
    containsSub ('\n' :: fms) (lit "\n---") = false := by
  cases hval : containsSub ('\n' :: fms) (lit "\n---") with
  | false => rfl
  | true =>
    exfalso
    have hsome : (findAux (lit "\n---") ('\n' :: fms) 0).isSome := by
      rw [show (findAux (lit "\n---") ('\n' :: fms) 0).isSome =
        containsSub ('\n' :: fms) (lit "\n---") from rfl, hval]
    obtain ⟨j, hj⟩ := findAux_isSome_iff.mp hsome
    cases j with
    | zero =>
      have hpre : List.isPrefixOf (lit "---") fms = true := by
        simp only [List.drop] at hj
        rw [show lit "\n---" = '\n' :: lit "---" from rfl] at hj
        simpa [List.isPrefixOf] using hj
      have hs' : List.isPrefixOf (lit "---") fms = false := hs
      rw [hs'] at hpre
      cases hpre
    | succ j =>
      have hin : List.isPrefixOf (lit "\n---") (fms.drop j) = true := by
        simpa using hj
      have hsome2 : (findAux (lit "\n---") fms 0).isSome :=
        findAux_isSome_iff.mpr ⟨j, hin⟩
      rw [show (findAux (lit "\n---") fms 0).isSome =
        containsSub fms (lit "\n---") from rfl, hc] at hsome2
      cases hsome2

/-- Parsing a document assembled exactly as `update_document` writes it
recovers the frontmatter text and the body, provided the frontmatter text
cannot be mistaken for a closing delimiter and the body is left-stripped. -/
theorem parse_assembled {fms rest : Str}
    (hs : startsWith fms (lit "---") = false)
    (hc : containsSub fms (lit "\n---") = false)
    (hr : lstrip rest = rest) :
    parse_frontmatter (lit "---\n" ++ fms ++ lit "\n---\n\n" ++ rest) =
      (parseFMLines (splitOnChar '\n' fms), fms, rest) := by
  have hsw : startsWith (lit "---\n" ++ fms ++ lit "\n---\n\n" ++ rest)
      (lit "---") = true := rfl
  have hshape : lit "---\n" ++ fms ++ lit "\n---\n\n" ++ rest =
      lit "---" ++ (('\n' :: fms) ++ (lit "\n---" ++ (lit "\n\n" ++ rest))) := by
    simp only [List.append_assoc]
    rfl
  have hnob : ∀ t, t < (lit "\n---").length → 0 < t →
      (lit "\n---").drop t ≠
        (lit "\n---").take ((lit "\n---").length - t) := by decide
  have hfind : find (lit "---\n" ++ fms ++ lit "\n---\n\n" ++ rest)
      (lit "\n---") 3 = some (fms.length + 4) := by
    unfold find
    have hdrop : (lit "---\n" ++ fms ++ lit "\n---\n\n" ++ rest).drop 3 =
        ('\n' :: fms) ++ (lit "\n---" ++ (lit "\n\n" ++ rest)) := by
      rw [hshape]
      exact List.drop_left' (by rfl)
    rw [hdrop, findAux_boundary (nocc_nl_fms hs hc)
      (fun t h1 h2 h3 => absurd h3 (hnob t h2 h1))]
    show some (('\n' :: fms).length + 3) = _
    rw [List.length_cons]
  unfold parse_frontmatter
  rw [if_neg (by rw [hsw]; intro h; exact h rfl), hfind]
  show (parseFMLines (splitOnChar '\n'
      (((lit "---\n" ++ fms ++ lit "\n---\n\n" ++ rest).take
        (fms.length + 4)).drop 4)),
    ((lit "---\n" ++ fms ++ lit "\n---\n\n" ++ rest).take
      (fms.length + 4)).drop 4,
    lstrip ((lit "---\n" ++ fms ++ lit "\n---\n\n" ++ rest).drop
      (fms.length + 4 + 4))) = _
  have htake : (lit "---\n" ++ fms ++ lit "\n---\n\n" ++ rest).take
      (fms.length + 4) = lit "---\n" ++ fms := by
    have hshape2 : lit "---\n" ++ fms ++ lit "\n---\n\n" ++ rest =
        (lit "---\n" ++ fms) ++ (lit "\n---\n\n" ++ rest) := by
      simp only [List.append_assoc]
    rw [hshape2]
    exact List.take_left' (by
      rw [List.length_append, show (lit "---\n").length = 4 from rfl]
      omega)
  have hdrop8 : (lit "---\n" ++ fms ++ lit "\n---\n\n" ++ rest).drop
      (fms.length + 4 + 4) = lit "\n\n" ++ rest := by
    have hshape3 : lit "---\n" ++ fms ++ lit "\n---\n\n" ++ rest =
        ((lit "---\n" ++ fms) ++ lit "\n---") ++ (lit "\n\n" ++ rest) := by
      simp only [List.append_assoc]
      rfl
    rw [hshape3]
    exact List.drop_left' (by
      rw [List.length_append, List.length_append,
        show (lit "---\n").length = 4 from rfl,
        show (lit "\n---").length = 4 from rfl]
      omega)
  rw [htake, hdrop8]
  have hls : lstrip (lit "\n\n" ++ rest) = rest := by
    show List.dropWhile isSpaceChar (lit "\n\n" ++ rest) = rest
    rw [dropWhile_append_all (by decide) rest]
    exact hr
  rw [hls, show (lit "---\n" ++ fms).drop 4 = fms from rfl]

end CrossDoc

namespace CrossDoc

open PyStr

/-- The generated navigation section starts with the detection marker. -/
theorem genNav_marker {rd : RelDocs} (h : rd ≠ []) :
    ∃ S, generate_navigation_links rd = navMarker ++ S := by
  refine ⟨navSection rd (lit "thread_parent") (lit "Thread Parent") ++
    (navSection rd (lit "thread_replies") (lit "Thread Replies") ++
    (navSection rd (lit "thread_siblings") (lit "Thread Siblings") ++
    (navSection rd (lit "attachments") (lit "Attachments") ++
    navSection rd (lit "shared_entities") (lit "Related by Entities")))), ?_⟩
  unfold generate_navigation_links
  rw [if_neg h]
  simp only [List.append_assoc]
  rfl

/-- Removing the navigation section from a body that ends in one recovers
the right-stripped body, provided the marker cannot occur earlier. -/
theorem stripNav_append_nav {body1 S : Str}
    (hnocc : containsSub body1 navMarker = false)
    (hend : endsWith body1 (lit "\n---\n## Related Documents") = false)
    (hbr : rstrip body1 = body1) :
    stripNavBody (body1 ++ (navMarker ++ S)) = body1 := by
  have hbord25 : ∀ t, t < navMarker.length → 0 < t →
      navMarker.drop t = navMarker.take (navMarker.length - t) →
      t = 25 := by decide
  have hfa : findAux navMarker (body1 ++ (navMarker ++ S)) 0 =
      some body1.length := by
    refine findAux_boundary hnocc ?_
    intro t h1 h2 h3
    have ht25 := hbord25 t h2 h1 h3
    subst ht25
    rw [show navMarker.take 25 = lit "\n---\n## Related Documents" from rfl]
    exact hend
  unfold stripNavBody
  rw [if_pos (by
    rw [show containsSub (body1 ++ (navMarker ++ S)) navMarker =
      (findAux navMarker (body1 ++ (navMarker ++ S)) 0).isSome from rfl, hfa]
    rfl)]
  unfold splitHead
  rw [hfa]
  show rstrip ((body1 ++ (navMarker ++ S)).take body1.length) = body1
  rw [List.take_left, hbr]

end CrossDoc

/-!
## Claim C4: idempotence of the navigation writer
-/

namespace CrossDoc

open PyStr

/-- C4 (amended): the writer is stable from the second run on.  On a
document whose parsed metadata is well-formed (and free of a pre-existing
`related_docs` key), whose serialized frontmatter cannot be mistaken for a
closing delimiter, and whose marker-stripped body is nonempty, has no
surrounding whitespace and no stray marker fragment, re-running
`update_document` on its own output reproduces that output byte for byte.
Byte-identical output on the SECOND run, as claimed, fails in general: the
first run preserves the body's trailing whitespace while every later run
right-strips it, so a document whose original body ends in a newline
changes once more on the second run. -/
theorem c4_second_run_stable {rd : RelDocs} {content : Str}
    (hrd : rd ≠ [])
    (hg0 : ∀ e ∈ (parse_frontmatter content).1, GoodEntry e)
    (hid0 : ∀ e ∈ (parse_frontmatter content).1, reparsedVal e.2 = e.2)
    (hnd0 : ((parse_frontmatter content).1.map Prod.fst).Nodup)
    (hrk : lit "related_docs" ∉ (parse_frontmatter content).1.map Prod.fst)
    (hgd : ∀ p ∈ fmRelated rd, GoodSub p)
    (hdne : dictItems (fmRelated rd) ≠ [])
    (hfs : startsWith (serialize_frontmatter (aset (lit "related_docs")
      (FMVal.d (fmRelated rd)) (parse_frontmatter content).1))
      (lit "---") = false)
    (hfc : containsSub (serialize_frontmatter (aset (lit "related_docs")
      (FMVal.d (fmRelated rd)) (parse_frontmatter content).1))
      (lit "\n---") = false)
    (hbl : lstrip (stripNavBody (parse_frontmatter content).2.2) =
      stripNavBody (parse_frontmatter content).2.2)
    (hbr : rstrip (stripNavBody (parse_frontmatter content).2.2) =
      stripNavBody (parse_frontmatter content).2.2)
    (hbne : stripNavBody (parse_frontmatter content).2.2 ≠ [])
    (hbocc : containsSub (stripNavBody (parse_frontmatter content).2.2)
      navMarker = false)
    (hbend : endsWith (stripNavBody (parse_frontmatter content).2.2)
      (lit "\n---\n## Related Documents") = false) :
    update_document rd (update_document rd content) =
      update_document rd content := by
  obtain ⟨S, hnav⟩ := genNav_marker hrd
  have hfm1 : aset (lit "related_docs") (FMVal.d (fmRelated rd))
      (parse_frontmatter content).1 =
      (parse_frontmatter content).1 ++
        [(lit "related_docs", FMVal.d (fmRelated rd))] := aset_not_mem hrk
  have hrun1 : update_document rd content =
      lit "---\n" ++ serialize_frontmatter (aset (lit "related_docs")
          (FMVal.d (fmRelated rd)) (parse_frontmatter content).1) ++
        lit "\n---\n\n" ++
        (stripNavBody (parse_frontmatter content).2.2 ++
          generate_navigation_links rd) := by
    unfold update_document
    rw [if_neg hrd]
    show lit "---\n" ++ serialize_frontmatter (aset (lit "related_docs")
        (FMVal.d (fmRelated rd)) (parse_frontmatter content).1) ++
      lit "\n---\n\n" ++
      stripNavBody (parse_frontmatter content).2.2 ++
      generate_navigation_links rd = _
    simp only [List.append_assoc]
  have hg1 : ∀ e ∈ (parse_frontmatter content).1 ++
      [(lit "related_docs", FMVal.d (fmRelated rd))], GoodEntry e := by
    intro e he
    rcases List.mem_append.mp he with h | h
    · exact hg0 e h
    · rcases List.mem_singleton.mp h with rfl
      exact ⟨⟨by decide, by decide, by decide, by decide⟩,
        by decide, by decide, hgd, hdne⟩
  have hnd1 : (((parse_frontmatter content).1 ++
      [(lit "related_docs", FMVal.d (fmRelated rd))]).map Prod.fst).Nodup := by
    rw [List.map_append]
    rw [List.nodup_append]
    refine ⟨hnd0, List.nodup_singleton _, ?_⟩
    intro k hk hk1
    rcases List.mem_singleton.mp hk1 with rfl
    exact hrk hk
  have hreparse : parseFMLines (splitOnChar '\n'
      (serialize_frontmatter (aset (lit "related_docs")
        (FMVal.d (fmRelated rd)) (parse_frontmatter content).1))) =
      (parse_frontmatter content).1 ++
        [(lit "related_docs", FMVal.l (dictItems (fmRelated rd)))] := by
    rw [hfm1, reparse_serialize hg1 hnd1, List.map_append,
      map_reparsed_id hid0]
    rfl
  have hparse2 : parse_frontmatter (update_document rd content) =
      (parseFMLines (splitOnChar '\n' (serialize_frontmatter
        (aset (lit "related_docs") (FMVal.d (fmRelated rd))
          (parse_frontmatter content).1))),
       serialize_frontmatter (aset (lit "related_docs")
         (FMVal.d (fmRelated rd)) (parse_frontmatter content).1),
       stripNavBody (parse_frontmatter content).2.2 ++
         generate_navigation_links rd) := by
    rw [hrun1]
    exact parse_assembled hfs hfc (lstrip_append_of_fixed hbl hbne)
  have hfm2 : aset (lit "related_docs") (FMVal.d (fmRelated rd))
      ((parse_frontmatter content).1 ++
        [(lit "related_docs", FMVal.l (dictItems (fmRelated rd)))]) =
      aset (lit "related_docs") (FMVal.d (fmRelated rd))
        (parse_frontmatter content).1 := by
    rw [aset_append_last hrk, hfm1]
  have hbody2 : stripNavBody (stripNavBody (parse_frontmatter content).2.2 ++
      generate_navigation_links rd) =
      stripNavBody (parse_frontmatter content).2.2 := by
    rw [hnav]
    exact stripNav_append_nav hbocc hbend hbr
  calc update_document rd (update_document rd content)
      = lit "---\n" ++ serialize_frontmatter (aset (lit "related_docs")
            (FMVal.d (fmRelated rd))
            (parse_frontmatter (update_document rd content)).1) ++
          lit "\n---\n\n" ++
          stripNavBody (parse_frontmatter (update_document rd content)).2.2 ++
          generate_navigation_links rd := by
        unfold update_document
        rw [if_neg hrd]
    _ = update_document rd content := by
        rw [hparse2]
        show lit "---\n" ++ serialize_frontmatter (aset (lit "related_docs")
            (FMVal.d (fmRelated rd))
            (parseFMLines (splitOnChar '\n' (serialize_frontmatter
              (aset (lit "related_docs") (FMVal.d (fmRelated rd))
                (parse_frontmatter content).1))))) ++
          lit "\n---\n\n" ++
          stripNavBody (stripNavBody (parse_frontmatter content).2.2 ++
            generate_navigation_links rd) ++
          generate_navigation_links rd = _
        rw [hreparse, hfm2, hbody2, hrun1]
        simp only [List.append_assoc]

end CrossDoc

namespace CrossDoc

open PyStr

/-- C4, counterexample to the claim as stated: a document whose body ends
in a newline is NOT byte-identical after the second run — the first run
keeps the trailing newline before the navigation section, the second run
right-strips it away. -/
theorem c4_counterexample :
    update_document [(lit "shared_entities", [lit "x.md"])]
        (update_document [(lit "shared_entities", [lit "x.md"])]
          (lit "---\nt: v\n---\nBody\n")) ≠
      update_document [(lit "shared_entities", [lit "x.md"])]
        (lit "---\nt: v\n---\nBody\n") := by decide

/-- C4, witness: the amended stability theorem applied to a concrete
document whose body carries no trailing whitespace. -/
theorem c4_witness :
    update_document [(lit "shared_entities", [lit "x.md"])]
        (update_document [(lit "shared_entities", [lit "x.md"])]
          (lit "---\nt: v\n---\nBody")) =
      update_document [(lit "shared_entities", [lit "x.md"])]
        (lit "---\nt: v\n---\nBody") := by
  refine c4_second_run_stable (by decide) ?_ (by decide) (by decide)
    (by decide) ?_ (by decide) (by decide) (by decide) (by decide)
    (by decide) (by decide) (by decide) (by decide)
  · intro e he
    have hm : (parse_frontmatter (lit "---\nt: v\n---\nBody")).1 =
        [(lit "t", FMVal.s (lit "v"))] := by decide
    rw [hm] at he
    rcases List.mem_singleton.mp he with rfl
    exact ⟨⟨by decide, by decide, by decide, by decide⟩,
      ⟨by decide, by decide, by decide, by decide⟩⟩
  · intro p hp
    have hm : fmRelated [(lit "shared_entities", [lit "x.md"])] =
        [(lit "shared_entities", NVal.l [lit "x.md"])] := by decide
    rw [hm] at hp
    rcases List.mem_singleton.mp hp with rfl
    refine ⟨by decide, by decide, by decide, by decide, ?_⟩
    intro i hi
    rcases List.mem_singleton.mp hi with rfl
    exact ⟨by decide, by decide, by decide⟩

end CrossDoc

/-!
## Embedding of entity extraction and the shared-entity relationship
(`Document.entities`, `get_all_entities`, `build_entity_relationships`)
-/

namespace CrossDoc

open PyStr

/-- A scanned document: its path (as Python renders it, a string) and its
parsed frontmatter. -/
structure PDoc where
  path : Str
  frontmatter : Meta
deriving DecidableEq, Repr

/-- The strings contributed by one entity value: a list contributes its
items; a plain string is iterated by `set.update`, contributing its
characters as one-character strings. -/
def entityValues : NVal → List Str
  | NVal.s v => v.map (fun c => [c])
  | NVal.l v => v

/-- The individual-field fallback of `Document.entities`: each present
entity-type field contributes its list (a scalar becomes a singleton). -/
def entityFields (m : Meta) : List Str → List (Str × NVal)
  | [] => []
  | et :: rest =>
    match alookup et m with
    | some (FMVal.l v) => (et, NVal.l v) :: entityFields m rest
    | some (FMVal.s v) => (et, NVal.l [v]) :: entityFields m rest
    | _ => entityFields m rest

/-- Embedding of the `Document.entities` property: a nested `entities`
mapping wins, otherwise the five individual entity-type fields. -/
def entities (d : PDoc) : List (Str × NVal) :=
  match alookup (lit "entities") d.frontmatter with
  | some (FMVal.d ent) => ent
  | _ => entityFields d.frontmatter
      [lit "people", lit "organisations", lit "properties",
       lit "locations", lit "dates"]

/-- Embedding of `get_all_entities`: the set of all entity values,
represented as a duplicate-free list. -/
def get_all_entities (d : PDoc) : List Str :=
  (((entities d).map (fun p => entityValues p.2)).flatten).dedup

/-- The `by_entity` index of `build_entity_relationships`. -/
def by_entity (docs : List PDoc) (e : Str) : List PDoc :=
  docs.filter (fun d => e ∈ get_all_entities d)

/-- The `shared_counts[other]` tally for one source document: one
increment per entity of `a` under which `other` is indexed, skipping
same-path hits. -/
def sharedCount (docs : List PDoc) (a b : PDoc) : Nat :=
  (((get_all_entities a).map (fun e =>
    (by_entity docs e).filter (fun other => other.path ≠ a.path))).flatten).count b

/-- The condition under which `build_entity_relationships` appends a
`shared_entities` edge from `a` to `b`: `a` has entities, `b` acquired a
tally (so the `shared_counts` key exists), and the tally meets the
threshold. -/
abbrev shared_entities_link (docs : List PDoc) (minShared : Int)
    (a b : PDoc) : Prop :=
  get_all_entities a ≠ [] ∧ 0 < sharedCount docs a b ∧
    (sharedCount docs a b : Int) ≥ minShared

end CrossDoc

namespace CrossDoc

open PyStr

theorem count_filter_path {docs : List PDoc} {a b : PDoc} {e : Str} :
    ((by_entity docs e).filter (fun other => other.path ≠ a.path)).count b =
      if e ∈ get_all_entities b ∧ b.path ≠ a.path then docs.count b else 0 := by
  by_cases hb : e ∈ get_all_entities b ∧ b.path ≠ a.path
  · rw [if_pos hb]
    unfold by_entity
    rw [List.count_filter (by simpa using hb.2),
      List.count_filter (by simpa using hb.1)]
  · rw [if_neg hb]
    apply List.count_eq_zero.mpr
    intro hmem
    rcases List.mem_filter.mp hmem with ⟨hmem2, hp2⟩
    rcases List.mem_filter.mp hmem2 with ⟨_, hp1⟩
    exact hb ⟨by simpa using hp1, by simpa using hp2⟩

theorem sum_ite_mem {lb : List Str} :
    ∀ {la : List Str},
      (la.map (fun e => if e ∈ lb then 1 else 0)).sum =
        (la.filter (fun e => e ∈ lb)).length := by
  intro la
  induction la with
  | nil => rfl
  | cons e rest ih =>
    rw [List.map_cons, List.sum_cons, List.filter_cons]
    by_cases hp : e ∈ lb
    · rw [if_pos hp, if_pos (by simpa using hp), List.length_cons, ih]
      omega
    · rw [if_neg hp, if_neg (by simpa using hp), ih]
      omega

/-- Closed form of the tally: the number of common entities, for
distinct paths of documents in a duplicate-free scan. -/
theorem sharedCount_closed {docs : List PDoc} {a b : PDoc}
    (hb : b ∈ docs) (hnd : docs.Nodup) :
    sharedCount docs a b = if b.path = a.path then 0
      else ((get_all_entities a).filter
        (fun e => e ∈ get_all_entities b)).length := by
  unfold sharedCount
  rw [List.count_flatten, List.map_map]
  by_cases hpath : b.path = a.path
  · rw [if_pos hpath]
    apply List.sum_eq_zero
    intro x hx
    rcases List.mem_map.mp hx with ⟨e, _, hxe⟩
    rw [show (List.count b ∘ fun e =>
      (by_entity docs e).filter (fun other => other.path ≠ a.path)) e =
      ((by_entity docs e).filter
        (fun other => other.path ≠ a.path)).count b from rfl,
      count_filter_path] at hxe
    rw [← hxe, if_neg (fun hc => hc.2 hpath)]
  · rw [if_neg hpath]
    have heach : ∀ e : Str, (List.count b ∘ fun e =>
        (by_entity docs e).filter (fun other => other.path ≠ a.path)) e =
        if e ∈ get_all_entities b then 1 else 0 := by
      intro e
      rw [show (List.count b ∘ fun e =>
        (by_entity docs e).filter (fun other => other.path ≠ a.path)) e =
        ((by_entity docs e).filter
          (fun other => other.path ≠ a.path)).count b from rfl,
        count_filter_path, List.count_eq_one_of_mem hnd hb]
      by_cases he : e ∈ get_all_entities b
      · rw [if_pos ⟨he, hpath⟩, if_pos he]
      · rw [if_neg (fun hc => he hc.1), if_neg he]
    rw [List.map_congr_left (fun e _ => heach e), sum_ite_mem]

theorem filter_mem_length_comm {la lb : List Str}
    (hna : la.Nodup) (hnb : lb.Nodup) :
    (la.filter (fun e => e ∈ lb)).length =
      (lb.filter (fun e => e ∈ la)).length := by
  have key : ∀ (x y : List Str), x.Nodup →
      (x.filter (fun e => e ∈ y)).length = (x.toFinset ∩ y.toFinset).card := by
    intro x y hx
    rw [← List.toFinset_card_of_nodup (List.Nodup.filter _ hx),
      List.toFinset_filter]
    congr 1
    rw [← Finset.filter_mem_eq_inter]
    apply Finset.filter_congr
    intro z _
    simp
  rw [key la lb hna, key lb la hnb, Finset.inter_comm]

end CrossDoc

/-!
## Claim C10: symmetry of the shared-entity relationship
-/

namespace CrossDoc

open PyStr

theorem sharedCount_comm {docs : List PDoc} {a b : PDoc}
    (ha : a ∈ docs) (hb : b ∈ docs) (hnd : docs.Nodup) :
    sharedCount docs a b = sharedCount docs b a := by
  rw [sharedCount_closed hb hnd, sharedCount_closed ha hnd]
  by_cases hpath : b.path = a.path
  · rw [if_pos hpath, if_pos hpath.symm]
  · rw [if_neg hpath, if_neg (fun hc => hpath hc.symm)]
    exact filter_mem_length_comm (List.nodup_dedup _) (List.nodup_dedup _)

theorem link_target_entities {docs : List PDoc} {a b : PDoc}
    (hb : b ∈ docs) (hnd : docs.Nodup)
    (hpos : 0 < sharedCount docs a b) : get_all_entities b ≠ [] := by
  rw [sharedCount_closed hb hnd] at hpos
  by_cases hpath : b.path = a.path
  · rw [if_pos hpath] at hpos
    exact absurd hpos (lt_irrefl 0)
  · rw [if_neg hpath] at hpos
    obtain ⟨e, he⟩ := List.exists_mem_of_length_pos hpos
    exact List.ne_nil_of_mem (by simpa using (List.mem_filter.mp he).2)

/-- C10: for any two documents of the same scan (distinct paths per file,
as a directory scan yields) and any threshold, the shared-entity
relationship is symmetric: `a` receives a `shared_entities` edge to `b`
exactly when `b` receives one to `a`, because both directions compare the
size of the same entity-set intersection against the same minimum. -/
theorem c10_shared_symmetric {docs : List PDoc} {minShared : Int}
    {a b : PDoc} (ha : a ∈ docs) (hb : b ∈ docs)
    (hnd : (docs.map PDoc.path).Nodup) :
    shared_entities_link docs minShared a b ↔
      shared_entities_link docs minShared b a := by
  have hnd' : docs.Nodup := List.Nodup.of_map _ hnd
  have hcomm : sharedCount docs a b = sharedCount docs b a :=
    sharedCount_comm ha hb hnd'
  constructor
  · rintro ⟨_, hpos, hmin⟩
    exact ⟨link_target_entities hb hnd' hpos, hcomm ▸ hpos, hcomm ▸ hmin⟩
  · rintro ⟨_, hpos, hmin⟩
    exact ⟨link_target_entities ha hnd' hpos, hcomm ▸ hpos, hcomm ▸ hmin⟩

def c10docA : PDoc := ⟨lit "a.md", [(lit "people", FMVal.l [lit "Alice", lit "Bob"])]⟩

def c10docB : PDoc := ⟨lit "b.md", [(lit "people", FMVal.l [lit "Bob", lit "Carol"])]⟩

/-- C10, witness: the symmetry theorem applied to two concrete documents
sharing one entity, which are linked both ways at threshold 1. -/
theorem c10_witness :
    (shared_entities_link [c10docA, c10docB] 1 c10docA c10docB ↔
      shared_entities_link [c10docA, c10docB] 1 c10docB c10docA) ∧
    shared_entities_link [c10docA, c10docB] 1 c10docA c10docB :=
  ⟨c10_shared_symmetric (by decide) (by decide) (by decide), by decide⟩

end CrossDoc

/-!
## Claim C8: attachment folder and attachment documents
(`find_attachment_folder`, `find_attachment_documents`)
-/

namespace CrossDoc

open PyStr

/-- A flat view of the scanned file system: existing directories and
existing files, each as a list of path components. -/
structure FS where
  dirs : List (List Str)
  files : List (List Str)
deriving DecidableEq, Repr

/-- Embedding of `find_attachment_folder(doc_path)`: the sibling
directory named exactly after the document's stem, when it exists. -/
def find_attachment_folder (fs : FS) (docPath : List Str) :
    Option (List Str) :=
  let base_name := pyStem (docPath.getLast?.getD [])
  let attachment_dir := docPath.dropLast ++ [base_name]
  if attachment_dir ∈ fs.dirs then some attachment_dir else none

/-- Embedding of `find_attachment_documents(doc)`: the `*.md` glob of
the attachment folder (`pathlib` matches hidden files too) minus
`-raw-headers` stems. -/
def find_attachment_documents (fs : FS) (docPath : List Str) :
    List (List Str) :=
  match find_attachment_folder fs docPath with
  | none => []
  | some dir =>
    let md_files := fs.files.filter (fun f =>
      f.dropLast = dir ∧ endsWith (f.getLast?.getD []) (lit ".md") = true)
    md_files.filter (fun f =>
      endsWith (pyStem (f.getLast?.getD [])) (lit "-raw-headers") = false)

/-- C8 (amended): when a sibling directory named EXACTLY after the
document's base filename minus extension exists, the linked attachment
documents are precisely the `.md` files directly inside it whose stem
does not end in `-raw-headers`.  A directory named `report_attachments/`
next to `report.md` is NOT matched (the code looks for `report/`), and
non-`.md` files are never linked. -/
theorem c8_attachment_links {fs : FS} {docPath f : List Str}
    (hdir : docPath.dropLast ++ [pyStem (docPath.getLast?.getD [])] ∈
      fs.dirs) :
    f ∈ find_attachment_documents fs docPath ↔
      (f ∈ fs.files ∧
       f.dropLast = docPath.dropLast ++ [pyStem (docPath.getLast?.getD [])] ∧
       endsWith (f.getLast?.getD []) (lit ".md") = true ∧
       endsWith (pyStem (f.getLast?.getD [])) (lit "-raw-headers") = false) := by
  unfold find_attachment_documents find_attachment_folder
  rw [if_pos hdir]
  show f ∈ (fs.files.filter _).filter _ ↔ _
  simp only [List.mem_filter, decide_eq_true_eq]
  tauto

/-- C8, counterexample to the claim as stated: for `report.md` with the
sibling directory `report_attachments/` containing `invoice.md`, NOTHING
is linked — the code requires the directory to be named `report/`. -/
theorem c8_counterexample :
    find_attachment_documents
      ⟨[[lit "report_attachments"]],
       [[lit "report_attachments", lit "invoice.md"],
        [lit "report_attachments", lit "report-raw-headers.md"]]⟩
      [lit "report.md"] = [] := by decide

/-- C8, witness: with the directory named `report/`, `invoice.md` is
linked — and so is the hidden `.secret.md`, since `glob("*.md")` matches
hidden files — while `report-raw-headers.md` is not. -/
theorem c8_witness :
    [lit "report", lit "invoice.md"] ∈ find_attachment_documents
      ⟨[[lit "report"]],
       [[lit "report", lit "invoice.md"],
        [lit "report", lit ".secret.md"],
        [lit "report", lit "report-raw-headers.md"]]⟩ [lit "report.md"] ∧
    [lit "report", lit ".secret.md"] ∈ find_attachment_documents
      ⟨[[lit "report"]],
       [[lit "report", lit "invoice.md"],
        [lit "report", lit ".secret.md"],
        [lit "report", lit "report-raw-headers.md"]]⟩ [lit "report.md"] ∧
    [lit "report", lit "report-raw-headers.md"] ∉ find_attachment_documents
      ⟨[[lit "report"]],
       [[lit "report", lit "invoice.md"],
        [lit "report", lit ".secret.md"],
        [lit "report", lit "report-raw-headers.md"]]⟩ [lit "report.md"] :=
  ⟨(c8_attachment_links (by decide)).mpr (by decide),
   (c8_attachment_links (by decide)).mpr (by decide), by decide⟩

end CrossDoc
